import Mathlib

/-!
# Verification of the OMReader NSQ consumer (src/nsq/OMReader.py)

Shallow embedding of the frame reassembler (`OMReader.process_data`), the
drain loop of `OMReader.run`, and the connection registry operations
(`connect_one`, `connection_close`, `connections_check`,
`connection_search`) of the `OMReader` class, together with theorems
settling the specification claims about them.

Bytes are modelled as `Nat` (the code works on Python 2 byte strings,
lists of values 0..255; none of the operations modelled here need the
upper bound).  Python's unbounded integers are `Int`; timestamps and
second-valued delays are `ℚ`.  Socket sends and log statements are
modelled as an ordered event list, mirroring the order of the side
effects in the source.
-/

set_option maxRecDepth 10000

namespace OMReader

/-! ## Byte-level codec: `struct.unpack('>l', data[:4])` and Python slicing -/

/-- Big-endian unsigned interpretation of the first four bytes,
as `struct.unpack` reads them.  (Fewer than four bytes would raise a
`struct.error` in Python; `process_data` only calls this with at least
four bytes buffered.) -/
def unpackU32 : List Nat → Nat
  | a :: b :: c :: d :: _ => ((a * 256 + b) * 256 + c) * 256 + d
  | _ => 0

/-- `struct.unpack('>l', ...)`: signed 32-bit big-endian decode. -/
def unpackBE32s (l : List Nat) : Int :=
  let u := unpackU32 l
  if 2147483648 ≤ u then (u : Int) - 4294967296 else (u : Int)

/-- Big-endian 4-byte encoding of a (frame-length) value, as the peer
produces it on the wire. -/
def be32 (n : Nat) : List Nat :=
  [n / 16777216 % 256, n / 65536 % 256, n / 256 % 256, n % 256]

/-- Normalization of a Python slice endpoint for a sequence of length
`n`: negative indices count from the end (clamped at 0), nonnegative
ones are clamped at `n`. -/
def pyIdx (n : Nat) (i : Int) : Nat :=
  if i < 0 then ((n : Int) + i).toNat else min i.toNat n

/-- Python `data[a:b]`. -/
def pySlice (data : List Nat) (a b : Int) : List Nat :=
  (data.take (pyIdx data.length b)).drop (pyIdx data.length a)

/-- Python `data[a:]`. -/
def pySliceFrom (data : List Nat) (a : Int) : List Nat :=
  data.drop (pyIdx data.length a)

/-! ## Frames, messages, the codec adapter and the dispatcher -/

/-- A decoded NSQ message (`nsq.decode_message` result): id, timestamp,
attempts and body.  The exact wire layout of the body is the codec's
business; the dispatcher is verified for an arbitrary decode function. -/
structure Msg where
  id : String
  timestamp : Int
  attempts : Nat
  body : List Nat
deriving DecidableEq

/-- Outcome of one application callback invocation: a normal return of
`(success, delay-in-seconds)`, or an exception. -/
inductive CbRes
  | ok (success : Bool) (delay : ℚ)
  | raises
deriving DecidableEq

/-- Modelled from the spec: frame-type tags are an enumeration
{RESPONSE, ERROR, MESSAGE}; the values follow the NSQ wire protocol's
frame-type enumeration consumed by the codec (`nsq.py` is not part of
src/).  The claims only need the three tags to be distinct. -/
def FRAME_TYPE_RESPONSE : Int := 0

/-- See `FRAME_TYPE_RESPONSE`. -/
def FRAME_TYPE_ERROR : Int := 1

/-- See `FRAME_TYPE_RESPONSE`. -/
def FRAME_TYPE_MESSAGE : Int := 2

/-- Modelled from the spec: `nsq.unpack_response` — "frame body begins
with a 4-byte frame-type tag (consumed by the codec, not the core)
followed by type-specific payload" (§6); it returns the tag and the
payload. -/
def unpack_response (body : List Nat) : Int × List Nat :=
  (unpackBE32s (body.take 4), body.drop 4)

/-- The ASCII bytes of the heartbeat sentinel payload. -/
def heartbeatBytes : List Nat := [95, 104, 101, 97, 114, 116, 98, 101, 97, 116, 95]

/-- Python `int()` applied to a rational: truncation toward zero. -/
def pyInt (q : ℚ) : Int := if q < 0 then -((-q).floor) else q.floor

/-- `str(int(delay * 1000))`: the delay text placed in a requeue
command, milliseconds rendered in decimal. -/
def delayText (q : ℚ) : String := toString (pyInt (q * 1000))

/-- One observable side effect of frame processing, in source order:
socket sends (`ready`, `finish`, `requeue`, `nop`), the synchronous
callback invocation, and the log statements. -/
inductive Event
  | sendReady (count : Nat)
  | callbackInvoked (m : Msg)
  | logProcessed (id : String)
  | sendFinish (id : String)
  | logRequeue (id : String)
  | logCallbackError
  | sendRequeue (id : String) (delayMsText : String)
  | logErrorFrame (payload : List Nat)
  | sendNop
  | logUnknownResponse (payload : List Nat)
  | logUnknownFrame (tag : Int) (payload : List Nat)
deriving DecidableEq

/-- Is the event a finish command? -/
def isFinishEv : Event → Bool
  | .sendFinish _ => true
  | _ => false

/-- Is the event a requeue command? -/
def isRequeueEv : Event → Bool
  | .sendRequeue _ _ => true
  | _ => false

section Dispatch

variable (dec : List Nat → Msg) (cb : Msg → CbRes) (mif : Nat) (rqd : ℚ)

/-- Frame dispatch: the body of `process_data` after a complete frame
has been sliced out (lines 140-168 of `OMReader.py`): unpack the frame,
and on a MESSAGE frame send a ready command, decode, invoke the
callback (an exception is converted to `(False, requeue_delay)` and
logged), then send finish or requeue; on an ERROR frame log it; on a
RESPONSE frame answer a heartbeat with a nop or log it; otherwise log
an unknown frame.  `mif` is `self.max_in_flight`, `rqd` is
`self.requeue_delay`. -/
def dispatchFrame (body : List Nat) : List Event :=
  let fr := unpack_response body
  if fr.1 = FRAME_TYPE_MESSAGE then
    let m := dec fr.2
    Event.sendReady mif :: Event.callbackInvoked m ::
      (match cb m with
       | .ok true _ => [Event.logProcessed m.id, Event.sendFinish m.id]
       | .ok false dly => [Event.logRequeue m.id, Event.sendRequeue m.id (delayText dly)]
       | .raises => [Event.logCallbackError, Event.logRequeue m.id,
                     Event.sendRequeue m.id (delayText rqd)])
  else if fr.1 = FRAME_TYPE_ERROR then
    [Event.logErrorFrame fr.2]
  else if fr.1 = FRAME_TYPE_RESPONSE then
    if fr.2 = heartbeatBytes then [Event.sendNop] else [Event.logUnknownResponse fr.2]
  else
    [Event.logUnknownFrame fr.1 fr.2]

/-- `OMReader.process_data` (lines 132-173): with at least 4 bytes
buffered, read the signed big-endian length prefix; when the buffer
holds the whole frame, slice out the body `data[4 : packet_length+4]`,
dispatch it, and return the remainder `data[4+packet_length :]`.
`none` models the `return None` path ("unchanged").  The result records
the sliced body, the side effects of dispatch, and the returned rest of
the buffer. -/
def process_data (data : List Nat) : Option (List Nat × List Event × List Nat) :=
  if 4 ≤ data.length then
    let pl := unpackBE32s (data.take 4)
    if 4 + pl ≤ (data.length : Int) then
      let body := pySlice data 4 (pl + 4)
      some (body, dispatchFrame dec cb mif rqd body, pySliceFrom data (4 + pl))
    else none
  else none

/-- The inner `while len(item['in']) > 4` drain loop of `OMReader.run`
(lines 207-216), fuel-indexed so that it computes structurally: while
more than four bytes are buffered, call `process_data`; stop keeping
the old buffer when it returns `None`, install the new buffer and stop
when the length did not change, otherwise continue on the new buffer.
Returns the dispatched frame bodies in order, the events in order, and
the final buffer.  One iteration that makes progress shortens the
buffer, so `buf.length` fuel always suffices (see `drainLoop`). -/
def drainFuel : Nat → List Nat → List (List Nat) × List Event × List Nat
  | 0, buf => ([], [], buf)
  | fuel + 1, buf =>
    if 4 < buf.length then
      match process_data dec cb mif rqd buf with
      | none => ([], [], buf)
      | some (b, evs, nb) =>
        if nb.length < buf.length then
          let t := drainFuel fuel nb
          (b :: t.1, evs ++ t.2.1, t.2.2)
        else ([b], evs, nb)
    else ([], [], buf)

/-- The drain loop run to completion on a buffer. -/
def drainLoop (buf : List Nat) : List (List Nat) × List Event × List Nat :=
  drainFuel dec cb mif rqd buf.length buf

end Dispatch

/-! ### Basic facts about the codec and slicing -/

theorem unpackU32_be32 (n : Nat) (h : n < 4294967296) : unpackU32 (be32 n) = n := by
  simp only [unpackU32, be32]
  omega

theorem unpackBE32s_be32 (n : Nat) (h : n < 2147483648) : unpackBE32s (be32 n) = (n : Int) := by
  have hu : unpackU32 (be32 n) = n := unpackU32_be32 n (by omega)
  simp only [unpackBE32s, hu]
  rw [if_neg (by omega)]

theorem be32_length (n : Nat) : (be32 n).length = 4 := rfl

theorem pyIdx_natCast (n k : Nat) : pyIdx n (k : Int) = min k n := by
  simp [pyIdx]

/-! ### Characterizing `process_data` -/

theorem process_data_short (dec : List Nat → Msg) (cb : Msg → CbRes) (mif : Nat) (rqd : ℚ)
    (data : List Nat) (h : data.length < 4) :
    process_data dec cb mif rqd data = none := by
  simp only [process_data]
  rw [if_neg (by omega)]

theorem process_data_waiting (dec : List Nat → Msg) (cb : Msg → CbRes) (mif : Nat) (rqd : ℚ)
    (data : List Nat) (h4 : 4 ≤ data.length)
    (hlt : (data.length : Int) < 4 + unpackBE32s (data.take 4)) :
    process_data dec cb mif rqd data = none := by
  simp only [process_data]
  rw [if_pos h4, if_neg (by omega)]

theorem process_data_complete (dec : List Nat → Msg) (cb : Msg → CbRes) (mif : Nat) (rqd : ℚ)
    (data : List Nat) (L : Nat) (hdec : unpackBE32s (data.take 4) = (L : Int))
    (hle : 4 + L ≤ data.length) :
    process_data dec cb mif rqd data =
      some ((data.drop 4).take L,
            dispatchFrame dec cb mif rqd ((data.drop 4).take L),
            data.drop (4 + L)) := by
  have h4 : 4 ≤ data.length := by omega
  have hidx1 : pyIdx data.length ((L : Int) + 4) = L + 4 := by
    have hcast : (L : Int) + 4 = ((L + 4 : Nat) : Int) := by push_cast; ring
    rw [hcast, pyIdx_natCast]
    omega
  have hidx2 : pyIdx data.length (4 : Int) = 4 := by
    have hcast : (4 : Int) = ((4 : Nat) : Int) := by norm_num
    rw [hcast, pyIdx_natCast]
    omega
  have hidx3 : pyIdx data.length ((4 : Int) + (L : Int)) = 4 + L := by
    have hcast : (4 : Int) + (L : Int) = ((4 + L : Nat) : Int) := by push_cast; ring
    rw [hcast, pyIdx_natCast]
    omega
  have hbody : pySlice data 4 (unpackBE32s (data.take 4) + 4) = (data.drop 4).take L := by
    rw [hdec]
    simp only [pySlice, hidx1, hidx2, List.drop_take]
    congr 1
  have hrest : pySliceFrom data (4 + unpackBE32s (data.take 4)) = data.drop (4 + L) := by
    rw [hdec]
    simp only [pySliceFrom, hidx3]
  simp only [process_data]
  rw [if_pos h4, if_pos (by rw [hdec]; omega), hbody, hrest]

/-- Encoding of one well-formed frame: 4-byte big-endian length prefix
followed by the body. -/
def encodeFrame (b : List Nat) : List Nat := be32 b.length ++ b

theorem encodeFrame_length (b : List Nat) : (encodeFrame b).length = 4 + b.length := by
  simp only [encodeFrame, List.length_append, be32_length]

theorem process_data_frame (dec : List Nat → Msg) (cb : Msg → CbRes) (mif : Nat) (rqd : ℚ)
    (b z : List Nat) (hwf : b.length < 2147483648) :
    process_data dec cb mif rqd (encodeFrame b ++ z) =
      some (b, dispatchFrame dec cb mif rqd b, z) := by
  have hlen : (encodeFrame b ++ z).length = 4 + b.length + z.length := by
    simp [encodeFrame_length]
  have htake : (encodeFrame b ++ z).take 4 = be32 b.length := by
    rw [encodeFrame, List.append_assoc]
    have h4 : 4 = (be32 b.length).length := rfl
    rw [h4, List.take_left]
  have hdec : unpackBE32s ((encodeFrame b ++ z).take 4) = (b.length : Int) := by
    rw [htake, unpackBE32s_be32 _ hwf]
  have h := process_data_complete dec cb mif rqd (encodeFrame b ++ z) b.length hdec (by omega)
  have hdropbody : ((encodeFrame b ++ z).drop 4).take b.length = b := by
    rw [encodeFrame, List.append_assoc]
    have h4 : 4 = (be32 b.length).length := rfl
    rw [h4, List.drop_left]
    rw [List.take_append_eq_append_take, List.take_length, Nat.sub_self, List.take_zero,
      List.append_nil]
  have hdroprest : (encodeFrame b ++ z).drop (4 + b.length) = z := by
    have h4 : 4 + b.length = (encodeFrame b).length := (encodeFrame_length b).symm
    rw [h4, List.drop_left]
  rw [h, hdropbody, hdroprest]

/-! ### Unfolding lemmas for the drain loop -/

theorem drainFuel_irrel (dec : List Nat → Msg) (cb : Msg → CbRes) (mif : Nat) (rqd : ℚ) :
    ∀ f₁ f₂ buf, buf.length ≤ f₁ → buf.length ≤ f₂ →
      drainFuel dec cb mif rqd f₁ buf = drainFuel dec cb mif rqd f₂ buf := by
  intro f₁
  induction f₁ with
  | zero =>
    intro f₂ buf h1 h2
    have hbuf : buf.length = 0 := by omega
    cases f₂ with
    | zero => rfl
    | succ k => simp [drainFuel, hbuf]
  | succ k ih =>
    intro f₂ buf h1 h2
    cases f₂ with
    | zero =>
      have hbuf : buf.length = 0 := by omega
      simp [drainFuel, hbuf]
    | succ k₂ =>
      simp only [drainFuel]
      by_cases hg : 4 < buf.length
      · rw [if_pos hg, if_pos hg]
        cases hpd : process_data dec cb mif rqd buf with
        | none => rfl
        | some t =>
          obtain ⟨b, evs, nb⟩ := t
          dsimp only
          by_cases hlt : nb.length < buf.length
          · rw [if_pos hlt, if_pos hlt, ih k₂ nb (by omega) (by omega)]
          · rw [if_neg hlt, if_neg hlt]
      · rw [if_neg hg, if_neg hg]

theorem drainLoop_small (dec : List Nat → Msg) (cb : Msg → CbRes) (mif : Nat) (rqd : ℚ)
    (buf : List Nat) (h : ¬ 4 < buf.length) :
    drainLoop dec cb mif rqd buf = ([], [], buf) := by
  cases hl : buf.length with
  | zero => simp [drainLoop, drainFuel, hl]
  | succ k =>
    simp only [drainLoop, hl, drainFuel]
    rw [if_neg (by omega)]

theorem drainLoop_none (dec : List Nat → Msg) (cb : Msg → CbRes) (mif : Nat) (rqd : ℚ)
    (buf : List Nat) (h : 4 < buf.length)
    (hpd : process_data dec cb mif rqd buf = none) :
    drainLoop dec cb mif rqd buf = ([], [], buf) := by
  obtain ⟨k, hk⟩ : ∃ k, buf.length = k + 1 := ⟨buf.length - 1, by omega⟩
  simp only [drainLoop, hk, drainFuel]
  rw [if_pos (by omega), hpd]

theorem drainLoop_cons (dec : List Nat → Msg) (cb : Msg → CbRes) (mif : Nat) (rqd : ℚ)
    (buf b : List Nat) (evs : List Event) (nb : List Nat) (h : 4 < buf.length)
    (hpd : process_data dec cb mif rqd buf = some (b, evs, nb))
    (hlt : nb.length < buf.length) :
    drainLoop dec cb mif rqd buf =
      (b :: (drainLoop dec cb mif rqd nb).1,
       evs ++ (drainLoop dec cb mif rqd nb).2.1,
       (drainLoop dec cb mif rqd nb).2.2) := by
  obtain ⟨k, hk⟩ : ∃ k, buf.length = k + 1 := ⟨buf.length - 1, by omega⟩
  simp only [drainLoop, hk, drainFuel]
  rw [if_pos (by omega), hpd]
  dsimp only
  rw [if_pos (by omega)]
  rw [drainFuel_irrel dec cb mif rqd k nb.length nb (by omega) (by omega)]

theorem drainLoop_last (dec : List Nat → Msg) (cb : Msg → CbRes) (mif : Nat) (rqd : ℚ)
    (buf b : List Nat) (evs : List Event) (nb : List Nat) (h : 4 < buf.length)
    (hpd : process_data dec cb mif rqd buf = some (b, evs, nb))
    (hge : ¬ nb.length < buf.length) :
    drainLoop dec cb mif rqd buf = ([b], evs, nb) := by
  obtain ⟨k, hk⟩ : ∃ k, buf.length = k + 1 := ⟨buf.length - 1, by omega⟩
  simp only [drainLoop, hk, drainFuel]
  rw [if_pos (by omega), hpd]
  dsimp only
  rw [if_neg (by omega)]

/-- The event list produced by `process_data` is the dispatch of the
sliced-out frame body. -/
theorem process_data_events (dec : List Nat → Msg) (cb : Msg → CbRes) (mif : Nat) (rqd : ℚ)
    (data b : List Nat) (evs : List Event) (rest : List Nat)
    (h : process_data dec cb mif rqd data = some (b, evs, rest)) :
    evs = dispatchFrame dec cb mif rqd b := by
  simp only [process_data] at h
  split at h
  · split at h
    · rw [Option.some.injEq, Prod.mk.injEq, Prod.mk.injEq] at h
      obtain ⟨rfl, rfl, rfl⟩ := h
      rfl
    · exact absurd h (by simp)
  · exact absurd h (by simp)

/-- `pyInt` on a nonnegative integer value is that value. -/
theorem pyInt_natCast (n : Nat) : pyInt ((n : ℚ)) = (n : Int) := by
  rw [pyInt, if_neg (not_lt.mpr (by positivity)), Rat.floor_def']
  simp

/-- Evaluating the millisecond text of a delay whose value in
milliseconds is the natural number `n`. -/
theorem delayText_ms (q : ℚ) (n : Nat) (h : q * 1000 = (n : ℚ)) :
    delayText q = toString ((n : Nat) : Int) := by
  rw [delayText, h, pyInt_natCast]

/-! ## Concrete instances used by witnesses and counterexamples -/

/-- Concrete message-decode function used in witnesses. -/
def decEx (payload : List Nat) : Msg :=
  { id := "m", timestamp := 0, attempts := 0, body := payload }

/-- Concrete callback that succeeds. -/
def cbEx : Msg → CbRes := fun _ => CbRes.ok true 0

/-- Concrete callback that fails with delay 2.5 seconds. -/
def cbFail : Msg → CbRes := fun _ => CbRes.ok false (5 / 2)

/-- Concrete callback that raises. -/
def cbRaise : Msg → CbRes := fun _ => CbRes.raises

/-- Buffer with a negative (signed) length prefix `-8` followed by six
bytes, exercising Python's negative-index slicing in `process_data`. -/
def negPrefixBuf : List Nat := [255, 255, 255, 248, 10, 11, 12, 13, 14, 15]

/-! ## C1 — frame extraction (`process_data`) -/

/-- **C1, counterexample.**  The claim reads the buffer's 4-byte prefix
as a *signed* length and asserts that whenever the buffer holds at least
`4 + length` bytes, the dispatched body is "the `length` bytes after the
prefix" and the remainder starts "at offset `4 + length`".  For the
negative prefix −8 on a 10-byte buffer those offsets (clamped at 0)
would give body `[]` and remainder the whole buffer; the code instead
follows Python slice semantics for negative indices: `data[4 : -4]` is
the two bytes `[10, 11]` and `data[-4:]` is the last four bytes. -/
theorem c1_counterexample :
    (process_data decEx cbEx 1 90 negPrefixBuf).map (fun r => r.1) = some [10, 11] ∧
    (process_data decEx cbEx 1 90 negPrefixBuf).map (fun r => r.2.2) = some [12, 13, 14, 15] ∧
    ¬ (process_data decEx cbEx 1 90 negPrefixBuf).map (fun r => r.1) = some [] ∧
    ¬ (process_data decEx cbEx 1 90 negPrefixBuf).map (fun r => r.2.2) = some negPrefixBuf :=
  ⟨rfl, rfl, by decide, by decide⟩

/-- **C1 (amended).**  A single call to `process_data`: with fewer than
4 bytes buffered it returns `None`; with a length prefix `L` and fewer
than `4 + L` bytes it returns `None`; and for a *nonnegative* prefix
`L` with the complete frame present it dispatches exactly the one frame
whose body is the `L` bytes after the prefix and returns the remainder
of the buffer from offset `4 + L`.  (Amendment forced by the
counterexample: the dispatch/remainder clause holds for nonnegative
prefixes; a negative signed prefix is consumed via Python's
negative-index slicing instead.) -/
theorem c1_theorem (dec : List Nat → Msg) (cb : Msg → CbRes) (mif : Nat) (rqd : ℚ)
    (data : List Nat) :
    (data.length < 4 → process_data dec cb mif rqd data = none) ∧
    (4 ≤ data.length → (data.length : Int) < 4 + unpackBE32s (data.take 4) →
      process_data dec cb mif rqd data = none) ∧
    (∀ L : Nat, unpackBE32s (data.take 4) = (L : Int) → 4 + L ≤ data.length →
      process_data dec cb mif rqd data =
        some ((data.drop 4).take L,
              dispatchFrame dec cb mif rqd ((data.drop 4).take L),
              data.drop (4 + L))) :=
  ⟨process_data_short dec cb mif rqd data,
   process_data_waiting dec cb mif rqd data,
   fun L hdec hle => process_data_complete dec cb mif rqd data L hdec hle⟩

/-- **C1, witness.**  The claim's own scenario: buffer
`[0,0,0,5] ++ body5 ++ [0,0,0,3] ++ partial` dispatches exactly the one
frame `[1,2,3,4,5]` and leaves `[0,0,0,3,9]`. -/
theorem c1_witness :
    unpackBE32s ([0, 0, 0, 5, 1, 2, 3, 4, 5, 0, 0, 0, 3, 9].take 4) = ((5 : Nat) : Int) ∧
    4 + 5 ≤ [0, 0, 0, 5, 1, 2, 3, 4, 5, 0, 0, 0, 3, 9].length ∧
    process_data decEx cbEx 1 90 [0, 0, 0, 5, 1, 2, 3, 4, 5, 0, 0, 0, 3, 9] =
      some ([1, 2, 3, 4, 5], dispatchFrame decEx cbEx 1 90 [1, 2, 3, 4, 5], [0, 0, 0, 3, 9]) := by
  refine ⟨by decide, by decide, ?_⟩
  have h := (c1_theorem decEx cbEx 1 90 [0, 0, 0, 5, 1, 2, 3, 4, 5, 0, 0, 0, 3, 9]).2.2 5
    (by decide) (by decide)
  exact h.trans rfl

/-! ## C7 — zero-length frames -/

/-- **C7, counterexample.**  The drain loop of `run` iterates only
`while len(item['in']) > 4`, so when a zero-length frame `[0,0,0,0]` is
the only buffered data it is *not* processed: nothing is dispatched and
the buffer is left unchanged, contradicting the claim that the drain
step still processes it. -/
theorem c7_counterexample :
    drainLoop decEx cbEx 1 90 [0, 0, 0, 0] = ([], [], [0, 0, 0, 0]) := rfl

/-- **C7 (amended).**  A zero-length frame is extracted and dispatched
like any other frame whenever `process_data` runs on a buffer beginning
with it; but the run loop's drain step only invokes `process_data` on
buffers of more than 4 bytes, so a zero-length frame that is the only
buffered data (exactly 4 bytes) is left unconsumed until more data
arrives. -/
theorem c7_theorem (dec : List Nat → Msg) (cb : Msg → CbRes) (mif : Nat) (rqd : ℚ) :
    (∀ rest : List Nat, process_data dec cb mif rqd (0 :: 0 :: 0 :: 0 :: rest) =
        some ([], dispatchFrame dec cb mif rqd [], rest)) ∧
    (∀ buf : List Nat, buf.length ≤ 4 → drainLoop dec cb mif rqd buf = ([], [], buf)) := by
  constructor
  · intro rest
    have hconv : (encodeFrame [] ++ rest : List Nat) = 0 :: 0 :: 0 :: 0 :: rest := rfl
    rw [← hconv]
    exact process_data_frame dec cb mif rqd [] rest (by decide)
  · intro buf h
    exact drainLoop_small dec cb mif rqd buf (by omega)

/-- **C7, witness.**  A zero-length frame followed by more data is
dispatched; a lone zero-length frame is left in the buffer. -/
theorem c7_witness :
    process_data decEx cbEx 1 90 [0, 0, 0, 0, 0, 0, 0, 3] =
      some ([], dispatchFrame decEx cbEx 1 90 [], [0, 0, 0, 3]) ∧
    drainLoop decEx cbEx 1 90 [9, 9, 9, 9] = ([], [], [9, 9, 9, 9]) :=
  ⟨(c7_theorem decEx cbEx 1 90).1 [0, 0, 0, 3],
   (c7_theorem decEx cbEx 1 90).2 [9, 9, 9, 9] (by decide)⟩

/-! ## C2 — callback exceptions are converted to a default-delay requeue -/

/-- **C2.**  If the application callback raises on a MESSAGE frame, the
dispatcher behaves as if the callback had returned
`(False, requeue_delay)`: the events are exactly the ready command, the
invocation, the logged exception, the requeue log and one requeue
command for that message id with the configured default delay in
milliseconds; in particular exactly one requeue command, no finish
command, and the exception does not escape (the dispatch is total and
produces the events above). -/
theorem c2_theorem (dec : List Nat → Msg) (cb : Msg → CbRes) (mif : Nat) (rqd : ℚ)
    (body : List Nat)
    (hmsg : (unpack_response body).1 = FRAME_TYPE_MESSAGE)
    (hraise : cb (dec (unpack_response body).2) = CbRes.raises) :
    dispatchFrame dec cb mif rqd body =
      [Event.sendReady mif,
       Event.callbackInvoked (dec (unpack_response body).2),
       Event.logCallbackError,
       Event.logRequeue (dec (unpack_response body).2).id,
       Event.sendRequeue (dec (unpack_response body).2).id (delayText rqd)] ∧
    (dispatchFrame dec cb mif rqd body).countP isRequeueEv = 1 ∧
    (dispatchFrame dec cb mif rqd body).countP isFinishEv = 0 := by
  have h : dispatchFrame dec cb mif rqd body =
      [Event.sendReady mif,
       Event.callbackInvoked (dec (unpack_response body).2),
       Event.logCallbackError,
       Event.logRequeue (dec (unpack_response body).2).id,
       Event.sendRequeue (dec (unpack_response body).2).id (delayText rqd)] := by
    simp only [dispatchFrame]
    rw [if_pos hmsg, hraise]
  refine ⟨h, ?_, ?_⟩ <;> rw [h] <;> rfl

/-- **C2, witness.**  A raising callback on the MESSAGE frame with body
`[0,0,0,2]` produces exactly one requeue with the default delay
(90 s → text "90000") and no finish. -/
theorem c2_witness :
    dispatchFrame decEx cbRaise 1 90 [0, 0, 0, 2] =
      [Event.sendReady 1,
       Event.callbackInvoked (decEx []),
       Event.logCallbackError,
       Event.logRequeue (decEx []).id,
       Event.sendRequeue (decEx []).id (delayText 90)] ∧
    (dispatchFrame decEx cbRaise 1 90 [0, 0, 0, 2]).countP isRequeueEv = 1 ∧
    (dispatchFrame decEx cbRaise 1 90 [0, 0, 0, 2]).countP isFinishEv = 0 ∧
    delayText (90 : ℚ) = "90000" := by
  have h := c2_theorem decEx cbRaise 1 90 [0, 0, 0, 2] (by decide) rfl
  exact ⟨h.1, h.2.1, h.2.2, (delayText_ms 90 90000 (by norm_num)).trans (by decide)⟩

/-! ## C3 — ready is sent before the callback runs -/

/-- **C3.**  For every MESSAGE frame processed by `process_data`, the
event sequence begins with the ready-count command and only then the
callback invocation: flow-control replenishment always precedes the
callback outcome, for every such frame without exception. -/
theorem c3_theorem (dec : List Nat → Msg) (cb : Msg → CbRes) (mif : Nat) (rqd : ℚ)
    (data b : List Nat) (evs : List Event) (rest : List Nat)
    (h : process_data dec cb mif rqd data = some (b, evs, rest))
    (hmsg : (unpack_response b).1 = FRAME_TYPE_MESSAGE) :
    ∃ tail, evs = Event.sendReady mif :: Event.callbackInvoked (dec (unpack_response b).2) :: tail := by
  have hevs := process_data_events dec cb mif rqd data b evs rest h
  subst hevs
  simp only [dispatchFrame]
  rw [if_pos hmsg]
  exact ⟨_, rfl⟩

/-- **C3, witness.**  On the concrete MESSAGE frame
`[0,0,0,4] ++ [0,0,0,2]` (length prefix 4, body = MESSAGE tag) the
ready command comes first, then the invocation. -/
theorem c3_witness :
    ∃ tail, (process_data decEx cbEx 1 90 [0, 0, 0, 4, 0, 0, 0, 2]).map (fun r => r.2.1) =
      some (Event.sendReady 1 :: Event.callbackInvoked (decEx []) :: tail) := by
  obtain ⟨tail, htail⟩ := c3_theorem decEx cbEx 1 90 [0, 0, 0, 4, 0, 0, 0, 2] [0, 0, 0, 2]
    (dispatchFrame decEx cbEx 1 90 [0, 0, 0, 2]) [] rfl (by decide)
  refine ⟨tail, ?_⟩
  have hmap : (process_data decEx cbEx 1 90 [0, 0, 0, 4, 0, 0, 0, 2]).map (fun r => r.2.1) =
      some (dispatchFrame decEx cbEx 1 90 [0, 0, 0, 2]) := rfl
  rw [hmap, htail]
  rfl

/-! ## C4 — finish on success, requeue with millisecond text on failure -/

/-- **C4.**  When the callback returns `(True, d)` the dispatcher sends
exactly one finish command for the message id and no requeue; when it
returns `(False, d)` it sends exactly one requeue command for the id
with the delay rendered as the decimal text of `int(d * 1000)`
milliseconds, and no finish; in particular a delay of 2.5 seconds is
rendered as "2500". -/
theorem c4_theorem (dec : List Nat → Msg) (cb : Msg → CbRes) (mif : Nat) (rqd : ℚ)
    (body : List Nat)
    (hmsg : (unpack_response body).1 = FRAME_TYPE_MESSAGE) :
    (∀ dly : ℚ, cb (dec (unpack_response body).2) = CbRes.ok true dly →
      dispatchFrame dec cb mif rqd body =
        [Event.sendReady mif,
         Event.callbackInvoked (dec (unpack_response body).2),
         Event.logProcessed (dec (unpack_response body).2).id,
         Event.sendFinish (dec (unpack_response body).2).id] ∧
      (dispatchFrame dec cb mif rqd body).countP isFinishEv = 1 ∧
      (dispatchFrame dec cb mif rqd body).countP isRequeueEv = 0) ∧
    (∀ dly : ℚ, cb (dec (unpack_response body).2) = CbRes.ok false dly →
      dispatchFrame dec cb mif rqd body =
        [Event.sendReady mif,
         Event.callbackInvoked (dec (unpack_response body).2),
         Event.logRequeue (dec (unpack_response body).2).id,
         Event.sendRequeue (dec (unpack_response body).2).id (delayText dly)] ∧
      (dispatchFrame dec cb mif rqd body).countP isRequeueEv = 1 ∧
      (dispatchFrame dec cb mif rqd body).countP isFinishEv = 0) ∧
    delayText (2.5 : ℚ) = "2500" := by
  refine ⟨?_, ?_, (delayText_ms 2.5 2500 (by norm_num)).trans (by decide)⟩
  · intro dly hok
    have h : dispatchFrame dec cb mif rqd body =
        [Event.sendReady mif,
         Event.callbackInvoked (dec (unpack_response body).2),
         Event.logProcessed (dec (unpack_response body).2).id,
         Event.sendFinish (dec (unpack_response body).2).id] := by
      simp only [dispatchFrame]
      rw [if_pos hmsg, hok]
    refine ⟨h, ?_, ?_⟩ <;> rw [h] <;> rfl
  · intro dly hok
    have h : dispatchFrame dec cb mif rqd body =
        [Event.sendReady mif,
         Event.callbackInvoked (dec (unpack_response body).2),
         Event.logRequeue (dec (unpack_response body).2).id,
         Event.sendRequeue (dec (unpack_response body).2).id (delayText dly)] := by
      simp only [dispatchFrame]
      rw [if_pos hmsg, hok]
    refine ⟨h, ?_, ?_⟩ <;> rw [h] <;> rfl

/-- **C4, witness.**  The two scenarios of the claim: a succeeding
callback yields one finish and no requeue; a callback returning
`(False, 2.5)` yields one requeue with delay text "2500" and no
finish. -/
theorem c4_witness :
    dispatchFrame decEx cbEx 1 90 [0, 0, 0, 2] =
      [Event.sendReady 1,
       Event.callbackInvoked (decEx []),
       Event.logProcessed (decEx []).id,
       Event.sendFinish (decEx []).id] ∧
    dispatchFrame decEx cbFail 1 90 [0, 0, 0, 2] =
      [Event.sendReady 1,
       Event.callbackInvoked (decEx []),
       Event.logRequeue (decEx []).id,
       Event.sendRequeue (decEx []).id (delayText (5 / 2))] ∧
    delayText (5 / 2 : ℚ) = "2500" := by
  have h1 := ((c4_theorem decEx cbEx 1 90 [0, 0, 0, 2] (by decide)).1 0 rfl).1
  have h2 := ((c4_theorem decEx cbFail 1 90 [0, 0, 0, 2] (by decide)).2.1 (5 / 2) rfl).1
  exact ⟨h1, h2, (delayText_ms (5 / 2) 2500 (by norm_num)).trans (by decide)⟩

/-! ## C5 — chunking invariance of the drain loop

The event loop appends each `recv` chunk to the connection's inbound
buffer and then drains it (`item['in'] += data` followed by the
`while` loop, lines 205-216).  We show that for a byte string that is a
concatenation of well-formed frames, feeding it chunk by chunk through
this append-and-drain step dispatches exactly the same frames, with the
same events, in the same order — and leaves the same final buffer — as
feeding the whole byte string at once. -/

/-- Concatenation of the wire encodings of a list of frame bodies. -/
def encodeFrames : List (List Nat) → List Nat
  | [] => []
  | b :: rest => encodeFrame b ++ encodeFrames rest

/-- Flattening of a chunk list into the byte string it delivers. -/
def flat : List (List Nat) → List Nat
  | [] => []
  | c :: rest => c ++ flat rest

/-- The events produced by dispatching a list of frame bodies in order. -/
def eventsAll (dec : List Nat → Msg) (cb : Msg → CbRes) (mif : Nat) (rqd : ℚ) :
    List (List Nat) → List Event
  | [] => []
  | b :: rest => dispatchFrame dec cb mif rqd b ++ eventsAll dec cb mif rqd rest

/-- All frame bodies of the stream are well formed: their length is
representable as a nonnegative signed 32-bit prefix. -/
def WFl (hs : List (List Nat)) : Prop := ∀ b ∈ hs, b.length < 2147483648

/-- One append-and-drain step of the run loop: append the chunk to the
buffer, drain, and accumulate the dispatched bodies and events. -/
def feedChunk (dec : List Nat → Msg) (cb : Msg → CbRes) (mif : Nat) (rqd : ℚ)
    (acc : List (List Nat) × List Event × List Nat) (chunk : List Nat) :
    List (List Nat) × List Event × List Nat :=
  let t := drainLoop dec cb mif rqd (acc.2.2 ++ chunk)
  (acc.1 ++ t.1, acc.2.1 ++ t.2.1, t.2.2)

/-- Feeding a list of chunks through successive append-and-drain steps,
starting from an empty inbound buffer. -/
def feedAll (dec : List Nat → Msg) (cb : Msg → CbRes) (mif : Nat) (rqd : ℚ)
    (chunks : List (List Nat)) : List (List Nat) × List Event × List Nat :=
  chunks.foldl (feedChunk dec cb mif rqd) ([], [], [])

theorem pfx_take (a b : List Nat) (h : a <+: b) (n : Nat) (hn : n ≤ a.length) :
    b.take n = a.take n := by
  obtain ⟨t, rfl⟩ := h
  rw [List.take_append_eq_append_take, show n - a.length = 0 by omega]
  simp

theorem pfx_nil (l : List Nat) (h : l <+: ([] : List Nat)) : l = [] := by
  obtain ⟨t, ht⟩ := h
  exact (List.append_eq_nil.mp ht).1

theorem pfx_cancel (l u v : List Nat) (h : (l ++ u) <+: (l ++ v)) : u <+: v := by
  obtain ⟨t, ht⟩ := h
  rw [List.append_assoc] at ht
  exact ⟨t, List.append_cancel_left ht⟩

theorem pfx_of_append (x y s : List Nat) (h : (x ++ y) <+: s) : x <+: s := by
  obtain ⟨t, ht⟩ := h
  exact ⟨y ++ t, by rw [← List.append_assoc, ht]⟩

/-- The first four bytes of a sufficiently long piece of a frame stream
are the big-endian encoding of the head frame's length. -/
theorem stream_take4 (x : List Nat) (b : List Nat) (tail : List (List Nat))
    (h : x <+: encodeFrames (b :: tail)) (h4 : 4 ≤ x.length) :
    x.take 4 = be32 b.length := by
  have hx : x.take 4 = (encodeFrames (b :: tail)).take 4 := (pfx_take x _ h 4 h4).symm
  rw [hx, encodeFrames, encodeFrame, List.append_assoc]
  rw [show (4 : Nat) = (be32 b.length).length from rfl, List.take_left]

/-- A piece of a frame stream that contains the whole head frame splits
as that frame followed by the rest of the piece. -/
theorem stream_split (x : List Nat) (b : List Nat) (tail : List (List Nat))
    (h : x <+: encodeFrames (b :: tail)) (hlen : 4 + b.length ≤ x.length) :
    x = encodeFrame b ++ x.drop (4 + b.length) := by
  have htake : x.take (4 + b.length) = encodeFrame b := by
    rw [← pfx_take x _ h (4 + b.length) hlen, encodeFrames]
    rw [show 4 + b.length = (encodeFrame b).length from (encodeFrame_length b).symm,
      List.take_left]
  conv_lhs => rw [← List.take_append_drop (4 + b.length) x]
  rw [htake]

/-- Master lemma for the drain loop on (pieces of) well-formed frame
streams: draining `x` consumes a prefix `gs` of the stream's frames and
leaves a stuck residue `r`, and draining `x ++ y` first dispatches
exactly those same frames and then proceeds as the drain of `r ++ y`. -/
theorem drain_main (dec : List Nat → Msg) (cb : Msg → CbRes) (mif : Nat) (rqd : ℚ) :
    ∀ (n : Nat) (x y : List Nat) (hs : List (List Nat)), x.length ≤ n → WFl hs →
      (x ++ y) <+: encodeFrames hs →
      ∃ gs hs' r, hs = gs ++ hs' ∧ x = encodeFrames gs ++ r ∧
        (r ++ y) <+: encodeFrames hs' ∧ WFl hs' ∧
        drainLoop dec cb mif rqd x = (gs, eventsAll dec cb mif rqd gs, r) ∧
        drainLoop dec cb mif rqd r = ([], [], r) ∧
        drainLoop dec cb mif rqd (x ++ y) =
          (gs ++ (drainLoop dec cb mif rqd (r ++ y)).1,
           eventsAll dec cb mif rqd gs ++ (drainLoop dec cb mif rqd (r ++ y)).2.1,
           (drainLoop dec cb mif rqd (r ++ y)).2.2) := by
  intro n
  induction n with
  | zero =>
    intro x y hs hn hwf hseg
    have hx : x = [] := List.length_eq_zero.mp (by omega)
    subst hx
    refine ⟨[], hs, [], rfl, rfl, hseg, hwf, ?_, ?_, ?_⟩
    · exact drainLoop_small dec cb mif rqd [] (by decide)
    · exact drainLoop_small dec cb mif rqd [] (by decide)
    · simp only [List.nil_append, eventsAll]
  | succ n ih =>
    intro x y hs hn hwf hseg
    by_cases hg : 4 < x.length
    · cases hs with
      | nil =>
        have hcontra : x ++ y = [] := pfx_nil _ hseg
        have hlen : x.length + y.length = 0 := by
          rw [← List.length_append, hcontra]
          rfl
        exact absurd hg (by omega)
      | cons b tail =>
        have hwfb : b.length < 2147483648 := hwf b (by simp)
        have hxseg : x <+: encodeFrames (b :: tail) := pfx_of_append x y _ hseg
        have htake : x.take 4 = be32 b.length := stream_take4 x b tail hxseg (by omega)
        have hdec : unpackBE32s (x.take 4) = (b.length : Int) := by
          rw [htake]
          exact unpackBE32s_be32 b.length hwfb
        by_cases hcomp : 4 + b.length ≤ x.length
        · -- the head frame is complete in x
          have hx := stream_split x b tail hxseg hcomp
          set x' := x.drop (4 + b.length) with hx'
          have hx'len : x'.length = x.length - (4 + b.length) := List.length_drop _ _
          have hpd : process_data dec cb mif rqd x =
              some (b, dispatchFrame dec cb mif rqd b, x') := by
            rw [hx]
            exact process_data_frame dec cb mif rqd b x' hwfb
          have hlt : x'.length < x.length := by omega
          have hdl := drainLoop_cons dec cb mif rqd x b _ x' hg hpd hlt
          have hseg' : (x' ++ y) <+: encodeFrames tail := by
            apply pfx_cancel (encodeFrame b)
            have : x ++ y = encodeFrame b ++ (x' ++ y) := by
              rw [hx, List.append_assoc]
            rw [← this]
            exact hseg
          obtain ⟨gs', hs', r, hhs, hxr, hrseg, hwf', hdx', hstuck, hdxy⟩ :=
            ih x' y tail (by omega) (fun c hc => hwf c (by simp [hc])) hseg'
          refine ⟨b :: gs', hs', r, ?_, ?_, hrseg, hwf', ?_, hstuck, ?_⟩
          · rw [List.cons_append, hhs]
          · rw [hx, hxr, encodeFrames, List.append_assoc]
          · rw [hdl, hdx', eventsAll]
          · have hxy : x ++ y = encodeFrame b ++ (x' ++ y) := by
              rw [hx, List.append_assoc]
            have hpd2 : process_data dec cb mif rqd (x ++ y) =
                some (b, dispatchFrame dec cb mif rqd b, x' ++ y) := by
              rw [hxy]
              exact process_data_frame dec cb mif rqd b (x' ++ y) hwfb
            have hlt2 : (x' ++ y).length < (x ++ y).length := by
              simp only [List.length_append]
              omega
            have hdl2 := drainLoop_cons dec cb mif rqd (x ++ y) b _ (x' ++ y)
              (by simp only [List.length_append]; omega) hpd2 hlt2
            rw [hdl2, hdxy, eventsAll]
            simp [List.append_assoc]
        · -- fewer than 4 + length bytes: the drain is stuck at x
          have hpd : process_data dec cb mif rqd x = none := by
            apply process_data_waiting dec cb mif rqd x (by omega)
            rw [hdec]
            omega
          have hdl := drainLoop_none dec cb mif rqd x hg hpd
          refine ⟨[], b :: tail, x, rfl, by rw [encodeFrames, List.nil_append], hseg, hwf,
            by rw [hdl]; rfl, hdl, ?_⟩
          simp only [List.nil_append, eventsAll]
    · -- at most 4 bytes buffered: the drain loop does not run
      have hdl := drainLoop_small dec cb mif rqd x hg
      refine ⟨[], hs, x, rfl, by rw [encodeFrames, List.nil_append], hseg, hwf,
        by rw [hdl]; rfl, hdl, ?_⟩
      simp only [List.nil_append, eventsAll]

theorem foldl_feedChunk_shift (dec : List Nat → Msg) (cb : Msg → CbRes) (mif : Nat) (rqd : ℚ) :
    ∀ (cs : List (List Nat)) (bs : List (List Nat)) (es : List Event) (buf : List Nat),
      cs.foldl (feedChunk dec cb mif rqd) (bs, es, buf) =
        (bs ++ (cs.foldl (feedChunk dec cb mif rqd) ([], [], buf)).1,
         es ++ (cs.foldl (feedChunk dec cb mif rqd) ([], [], buf)).2.1,
         (cs.foldl (feedChunk dec cb mif rqd) ([], [], buf)).2.2) := by
  intro cs
  induction cs with
  | nil => intro bs es buf; simp [List.foldl]
  | cons c cs ih =>
    intro bs es buf
    rcases hdd : drainLoop dec cb mif rqd (buf ++ c) with ⟨d1, d2, d3⟩
    have hfc : ∀ bs' es', feedChunk dec cb mif rqd (bs', es', buf) c = (bs' ++ d1, es' ++ d2, d3) := by
      intro bs' es'
      simp [feedChunk, hdd]
    rw [List.foldl_cons, List.foldl_cons, hfc bs es, hfc [] []]
    simp only [List.nil_append]
    rw [ih (bs ++ d1) (es ++ d2) d3, ih d1 d2 d3]
    simp [List.append_assoc]

/-- Fold form of the master lemma: starting from a stuck buffer `p`,
feeding the chunks one by one equals draining the whole appended byte
string at once. -/
theorem feed_spec (dec : List Nat → Msg) (cb : Msg → CbRes) (mif : Nat) (rqd : ℚ) :
    ∀ (chunks : List (List Nat)) (p : List Nat) (hs : List (List Nat)),
      WFl hs → drainLoop dec cb mif rqd p = ([], [], p) →
      (p ++ flat chunks) <+: encodeFrames hs →
      chunks.foldl (feedChunk dec cb mif rqd) ([], [], p) =
        ((drainLoop dec cb mif rqd (p ++ flat chunks)).1,
         (drainLoop dec cb mif rqd (p ++ flat chunks)).2.1,
         (drainLoop dec cb mif rqd (p ++ flat chunks)).2.2) := by
  intro chunks
  induction chunks with
  | nil =>
    intro p hs hwf hstuck hseg
    simp only [List.foldl, flat, List.append_nil, hstuck]
  | cons c cs ih =>
    intro p hs hwf hstuck hseg
    have hassoc : p ++ flat (c :: cs) = (p ++ c) ++ flat cs := by
      rw [flat, ← List.append_assoc]
    rw [hassoc] at hseg
    obtain ⟨gs, hs', r, hhs, hxr, hrseg, hwf', hdx, hstuckr, hdxy⟩ :=
      drain_main dec cb mif rqd (p ++ c).length (p ++ c) (flat cs) hs le_rfl hwf hseg
    simp only [List.foldl, feedChunk, List.nil_append]
    rw [hdx]
    rw [foldl_feedChunk_shift dec cb mif rqd cs]
    have hih := ih r hs' hwf' hstuckr hrseg
    rw [hih, hassoc, hdxy]

/-- **C5.**  For any finite sequence of well-formed frames concatenated
into one byte string, feeding the bytes through the run loop's
append-and-drain step in arbitrary chunks dispatches exactly the same
frames, with the same events, in the same order — and leaves the same
final buffer — as appending the whole byte string at once. -/
theorem c5_theorem (dec : List Nat → Msg) (cb : Msg → CbRes) (mif : Nat) (rqd : ℚ)
    (FS : List (List Nat)) (hwf : WFl FS)
    (chunks : List (List Nat)) (hchunks : flat chunks = encodeFrames FS) :
    feedAll dec cb mif rqd chunks = feedAll dec cb mif rqd [encodeFrames FS] := by
  have hstuck : drainLoop dec cb mif rqd [] = ([], [], []) :=
    drainLoop_small dec cb mif rqd [] (by decide)
  have h1 := feed_spec dec cb mif rqd chunks [] FS hwf hstuck
    (by rw [List.nil_append, hchunks])
  have h2 := feed_spec dec cb mif rqd [encodeFrames FS] [] FS hwf hstuck
    (by simp [flat])
  have e1 : ([] : List Nat) ++ flat chunks = encodeFrames FS := by
    rw [List.nil_append, hchunks]
  have e2 : ([] : List Nat) ++ flat [encodeFrames FS] = encodeFrames FS := by
    simp [flat]
  rw [feedAll, h1, feedAll, h2, e1, e2]

/-- **C5, witness.**  Splitting the two-frame stream
`[0,0,0,4,0,0,0,2] ++ [0,0,0,1,7]` in the middle of the first frame
dispatches the same frames in the same order as feeding it whole. -/
theorem c5_witness :
    feedAll decEx cbEx 1 90 [[0, 0, 0, 4, 0, 0], [0, 2, 0, 0, 0, 1, 7]] =
      feedAll decEx cbEx 1 90 [[0, 0, 0, 4, 0, 0, 0, 2, 0, 0, 0, 1, 7]] :=
  c5_theorem decEx cbEx 1 90 [[0, 0, 0, 2], [7]] (by unfold WFl; decide)
    [[0, 0, 0, 4, 0, 0], [0, 2, 0, 0, 0, 1, 7]] (by decide)

/-! ## Connection registry (`connect_one`, `connection_close`,
`connections_check`, `connection_search`) -/

/-- Connection lifecycle state. -/
inductive CState
  | connecting
  | connected
  | disconnected
deriving DecidableEq

/-- One Connection record, the per-address dict created by
`connect_one` (lines 62-69): socket handle (`None` before the dial
succeeds, modelled as the descriptor number), lifecycle state,
last-transition time, inbound buffer and the `closed` flag. -/
structure Conn where
  sock : Option Nat
  state : CState
  time : ℚ
  inBuf : List Nat
  closed : Bool
deriving DecidableEq

/-- Registry lifecycle events: a completed `connection_close` call and
a dial attempt by `connect_one`. -/
inductive CEvent
  | closeCalled (a : Nat)
  | dialed (a : Nat)
deriving DecidableEq

/-- The reader state used by the registry claims: the
`self.connections` dict as an association list keyed by address, the
set of descriptors registered with `self.poll`, and the log of
lifecycle events. -/
structure RState where
  conns : List (Nat × Conn)
  pollSet : List Nat
  events : List CEvent
deriving DecidableEq

/-- Dict lookup `self.connections[address]`. -/
def lookupA : List (Nat × Conn) → Nat → Option Conn
  | [], _ => none
  | p :: rest, a => if p.1 = a then some p.2 else lookupA rest a

/-- Dict assignment `self.connections[address] = item`: replace the
entry in place if the key is present, else add it. -/
def setEntry : List (Nat × Conn) → Nat → Conn → List (Nat × Conn)
  | [], a, c => [(a, c)]
  | p :: rest, a, c => if p.1 = a then (a, c) :: rest else p :: setEntry rest a c

/-- `del self.connections[address]` (removes the unique entry for the
key; registry keys are kept duplicate-free). -/
def delKey : List (Nat × Conn) → Nat → List (Nat × Conn)
  | [], _ => []
  | p :: rest, a => if p.1 = a then rest else p :: delKey rest a

/-- `self.poll.unregister`: remove a descriptor from the registered
set. -/
def removeFd : List Nat → Nat → List Nat
  | [], _ => []
  | x :: rest, fd => if x = fd then rest else x :: removeFd rest fd

/-- The fresh record `connect_one` installs before dialing:
`{'socket': None, 'state': 'connecting', 'time': now, 'in': '',
'closed': True}`. -/
def freshConn (now : ℚ) : Conn :=
  { sock := none, state := CState.connecting, time := now, inBuf := [], closed := true }

/-- The record after a successful dial: socket stored, `connected`,
`closed` cleared (the `time` field keeps the value set at creation in
the same call). -/
def liveConn (fd : Nat) (now : ℚ) : Conn :=
  { sock := some fd, state := CState.connected, time := now, inBuf := [], closed := false }

/-- The record a given dial outcome leaves in the registry. -/
def connResult (dialRes : Option Nat) (now : ℚ) : Conn :=
  match dialRes with
  | none => freshConn now
  | some fd => liveConn fd now

/-- `OMReader.connect_one` (lines 59-88): install a fresh `connecting`
record (closed, no socket), then dial; on failure log and return,
leaving the record derelict; on success store the socket, switch to
`connected`, clear `closed`, send the protocol preamble (socket sends
are not registry effects and are omitted here) and register the
descriptor with the poll object.  `dialRes` is the outcome of
`socket.create_connection`. -/
def connect_one (dialRes : Option Nat) (now : ℚ) (st : RState) (a : Nat) : RState :=
  let st1 : RState :=
    { st with conns := setEntry st.conns a (freshConn now),
              events := st.events ++ [CEvent.dialed a] }
  match dialRes with
  | none => st1
  | some fd =>
    { st1 with conns := setEntry st1.conns a (liveConn fd now),
               pollSet := st1.pollSet ++ [fd] }

/-- `OMReader.connection_close` (lines 120-129): unregister the socket,
close it, mark `disconnected` and `closed`, update the transition time.
`none` models the exceptions Python raises before any mutation: a
missing registry key (`KeyError`), a `None` socket (`AttributeError`),
or unregistering a descriptor that is not registered (`KeyError` from
`poll.unregister`, or the error a closed socket's `fileno()` raises). -/
def connection_close (now : ℚ) (st : RState) (a : Nat) : Option RState :=
  (lookupA st.conns a).bind fun item =>
    item.sock.bind fun fd =>
      if fd ∈ st.pollSet then
        some { st with
          pollSet := removeFd st.pollSet fd,
          conns := setEntry st.conns a
            { item with state := CState.disconnected, closed := true, time := now },
          events := st.events ++ [CEvent.closeCalled a] }
      else none

/-- The health-scan staleness test of `connections_check` (line 95):
state `disconnected` or `connecting`, and last transition more than 5
time units before `now`. -/
def staleB (now : ℚ) (c : Conn) : Bool :=
  (decide (c.state = CState.disconnected) || decide (c.state = CState.connecting)) &&
    decide (5 < now - c.time)

/-- One iteration of the first loop of `connections_check` (lines
100-103): close the connection unless it is already flagged closed,
then delete it from the registry. -/
def closeAndDrop (now : ℚ) (st : RState) (a : Nat) : Option RState :=
  (lookupA st.conns a).bind fun c =>
    if c.closed then some { st with conns := delKey st.conns a }
    else (connection_close now st a).map fun st2 => { st2 with conns := delKey st2.conns a }

/-- Folding `closeAndDrop` over the stale addresses; a failing step
aborts the whole scan, like a propagating Python exception. -/
def foldClose (now : ℚ) : Option RState → List Nat → Option RState
  | none, _ => none
  | some st, [] => some st
  | some st, a :: rest => foldClose now (closeAndDrop now st a) rest

/-- `OMReader.connections_check` (lines 91-108): collect every address
whose connection is stale, close (only if not already flagged closed)
and delete each of them, then redial each via `connect_one`.  `dial`
gives the dial outcome per address. -/
def connections_check (dial : Nat → Option Nat) (now : ℚ) (st : RState) : Option RState :=
  let tc := (st.conns.filter (fun p => staleB now p.2)).map Prod.fst
  (foldClose now (some st) tc).map fun st1 =>
    tc.foldl (fun s a => connect_one (dial a) now s a) st1

/-- The flag-guarded close performed by the caller in
`connections_check`: `if not self.connections[address]['closed']:
self.connection_close(address)`. -/
def close_if_open (now : ℚ) (st : RState) (a : Nat) : Option RState :=
  (lookupA st.conns a).bind fun c =>
    if c.closed then some st else connection_close now st a

/-- `OMReader.connection_search` (lines 110-116): scan the registry for
the connection whose socket has the given descriptor, breaking at the
first match.  The Python loop variables keep their last value, so when
no connection matches in a *non-empty* registry the function returns
the last pair scanned, not a not-found marker; `none` models the
`NameError` Python raises on an empty registry (`address` unbound). -/
def connection_search (conns : List (Nat × Conn)) (fd : Nat) : Option (Nat × Conn) :=
  match conns.find? (fun p => decide (p.2.sock = some fd)) with
  | some p => some p
  | none => conns.getLast?

/-! ### Association-list lemmas -/

theorem lookupA_setEntry_self (l : List (Nat × Conn)) (a : Nat) (c : Conn) :
    lookupA (setEntry l a c) a = some c := by
  induction l with
  | nil => simp [setEntry, lookupA]
  | cons p rest ih =>
    by_cases h : p.1 = a
    · simp [setEntry, h, lookupA]
    · simp [setEntry, h, lookupA, ih]

theorem lookupA_setEntry_other (l : List (Nat × Conn)) (a b : Nat) (c : Conn) (h : b ≠ a) :
    lookupA (setEntry l a c) b = lookupA l b := by
  induction l with
  | nil =>
    simp only [setEntry, lookupA]
    rw [if_neg (by omega)]
  | cons p rest ih =>
    by_cases hp : p.1 = a
    · simp only [setEntry, if_pos hp, lookupA]
      rw [if_neg (by omega), if_neg (by omega)]
    · simp only [setEntry, if_neg hp, lookupA, ih]

theorem lookupA_delKey_other (l : List (Nat × Conn)) (a b : Nat) (h : b ≠ a) :
    lookupA (delKey l a) b = lookupA l b := by
  induction l with
  | nil => simp [delKey]
  | cons p rest ih =>
    by_cases hp : p.1 = a
    · simp only [delKey, if_pos hp, lookupA]
      rw [if_neg (by omega)]
    · simp only [delKey, if_neg hp, lookupA, ih]

theorem mem_setEntry (l : List (Nat × Conn)) (a : Nat) (c : Conn) (p : Nat × Conn)
    (h : p ∈ setEntry l a c) : p ∈ l ∨ p = (a, c) := by
  induction l with
  | nil => simp [setEntry] at h; right; exact h
  | cons q rest ih =>
    by_cases hq : q.1 = a
    · rw [setEntry, if_pos hq] at h
      rcases List.mem_cons.mp h with h1 | h1
      · right; exact h1
      · left; exact List.mem_cons_of_mem q h1
    · rw [setEntry, if_neg hq] at h
      rcases List.mem_cons.mp h with h1 | h1
      · left; rw [h1]; exact List.mem_cons_self q rest
      · rcases ih h1 with h2 | h2
        · left; exact List.mem_cons_of_mem q h2
        · right; exact h2

theorem mem_delKey (l : List (Nat × Conn)) (a : Nat) (p : Nat × Conn)
    (h : p ∈ delKey l a) : p ∈ l := by
  induction l with
  | nil => simp [delKey] at h
  | cons q rest ih =>
    by_cases hq : q.1 = a
    · rw [delKey, if_pos hq] at h
      exact List.mem_cons_of_mem q h
    · rw [delKey, if_neg hq] at h
      rcases List.mem_cons.mp h with h1 | h1
      · rw [h1]; exact List.mem_cons_self q rest
      · exact List.mem_cons_of_mem q (ih h1)

theorem keys_setEntry_mem (l : List (Nat × Conn)) (a : Nat) (c : Conn) (b : Nat)
    (h : b ∈ (setEntry l a c).map Prod.fst) : b ∈ l.map Prod.fst ∨ b = a := by
  obtain ⟨p, hp, hb⟩ := List.mem_map.mp h
  rcases mem_setEntry l a c p hp with h1 | h1
  · left; exact List.mem_map.mpr ⟨p, h1, hb⟩
  · right; rw [← hb, h1]

theorem nodup_keys_setEntry (l : List (Nat × Conn)) (a : Nat) (c : Conn)
    (h : (l.map Prod.fst).Nodup) : ((setEntry l a c).map Prod.fst).Nodup := by
  induction l with
  | nil => simp [setEntry]
  | cons p rest ih =>
    rw [List.map_cons, List.nodup_cons] at h
    by_cases hp : p.1 = a
    · rw [setEntry, if_pos hp, List.map_cons, List.nodup_cons]
      exact ⟨by rw [← hp]; exact h.1, h.2⟩
    · rw [setEntry, if_neg hp, List.map_cons, List.nodup_cons]
      refine ⟨?_, ih h.2⟩
      intro hmem
      rcases keys_setEntry_mem rest a c p.1 hmem with h1 | h1
      · exact h.1 h1
      · exact hp h1

theorem keys_delKey_sublist (l : List (Nat × Conn)) (a : Nat) :
    List.Sublist ((delKey l a).map Prod.fst) (l.map Prod.fst) := by
  induction l with
  | nil => simp [delKey]
  | cons p rest ih =>
    by_cases hp : p.1 = a
    · rw [delKey, if_pos hp, List.map_cons]
      exact List.sublist_cons_self _ _
    · rw [delKey, if_neg hp, List.map_cons, List.map_cons]
      exact ih.cons₂ p.1

theorem nodup_keys_delKey (l : List (Nat × Conn)) (a : Nat)
    (h : (l.map Prod.fst).Nodup) : ((delKey l a).map Prod.fst).Nodup :=
  h.sublist (keys_delKey_sublist l a)

theorem lookupA_mem_aux (l : List (Nat × Conn)) (a : Nat) (c : Conn)
    (h : lookupA l a = some c) : (a, c) ∈ l := by
  induction l with
  | nil => simp [lookupA] at h
  | cons p rest ih =>
    by_cases hp : p.1 = a
    · rw [lookupA, if_pos hp, Option.some.injEq] at h
      have hpc : p = (a, c) := by
        obtain ⟨p1, p2⟩ := p
        simp only at hp h
        rw [hp, h]
      exact List.mem_cons.mpr (Or.inl hpc.symm)
    · rw [lookupA, if_neg hp] at h
      exact List.mem_cons_of_mem p (ih h)

theorem lookupA_delKey_self (l : List (Nat × Conn)) (a : Nat)
    (h : (l.map Prod.fst).Nodup) : lookupA (delKey l a) a = none := by
  induction l with
  | nil => simp [delKey, lookupA]
  | cons p rest ih =>
    rw [List.map_cons, List.nodup_cons] at h
    by_cases hp : p.1 = a
    · rw [delKey, if_pos hp]
      cases hl : lookupA rest a with
      | none => rfl
      | some c =>
        have hmm : a ∈ List.map Prod.fst rest :=
          List.mem_map.mpr ⟨(a, c), lookupA_mem_aux rest a c hl, rfl⟩
        exact absurd hmm (hp ▸ h.1)
    · rw [delKey, if_neg hp, lookupA, if_neg hp]
      exact ih h.2

theorem mem_lookupA (l : List (Nat × Conn)) (a : Nat) (c : Conn)
    (hmem : (a, c) ∈ l) (hnd : (l.map Prod.fst).Nodup) : lookupA l a = some c := by
  induction l with
  | nil => simp at hmem
  | cons p rest ih =>
    rw [List.map_cons, List.nodup_cons] at hnd
    rcases List.mem_cons.mp hmem with h1 | h1
    · rw [← h1, lookupA, if_pos rfl]
    · rw [lookupA]
      by_cases hp : p.1 = a
      · have hmm : a ∈ List.map Prod.fst rest := List.mem_map.mpr ⟨(a, c), h1, rfl⟩
        exact absurd hmm (hp ▸ hnd.1)
      · rw [if_neg hp]
        exact ih h1 hnd.2

theorem mem_removeFd (l : List Nat) (fd x : Nat) (h : x ∈ removeFd l fd) : x ∈ l := by
  induction l with
  | nil => simp [removeFd] at h
  | cons y rest ih =>
    by_cases hy : y = fd
    · rw [removeFd, if_pos hy] at h
      exact List.mem_cons_of_mem y h
    · rw [removeFd, if_neg hy] at h
      rcases List.mem_cons.mp h with h1 | h1
      · rw [h1]; exact List.mem_cons_self y rest
      · exact List.mem_cons_of_mem y (ih h1)

theorem mem_removeFd_of_ne (l : List Nat) (fd x : Nat) (hx : x ∈ l) (hne : x ≠ fd) :
    x ∈ removeFd l fd := by
  induction l with
  | nil => simp at hx
  | cons y rest ih =>
    by_cases hy : y = fd
    · rw [removeFd, if_pos hy]
      rcases List.mem_cons.mp hx with h1 | h1
      · exact absurd (h1.trans hy) hne
      · exact h1
    · rw [removeFd, if_neg hy]
      rcases List.mem_cons.mp hx with h1 | h1
      · rw [h1]; exact List.mem_cons_self y _
      · exact List.mem_cons_of_mem y (ih h1)

theorem not_mem_removeFd_self (l : List Nat) (fd : Nat) (h : l.Nodup) :
    fd ∉ removeFd l fd := by
  induction l with
  | nil => simp [removeFd]
  | cons y rest ih =>
    rw [List.nodup_cons] at h
    by_cases hy : y = fd
    · rw [removeFd, if_pos hy]
      rw [← hy]
      exact h.1
    · rw [removeFd, if_neg hy]
      intro hmem
      rcases List.mem_cons.mp hmem with h1 | h1
      · exact hy h1.symm
      · exact ih h.2 h1

/-! ### Case equations for the close operations -/

theorem connection_close_none (now : ℚ) (st : RState) (a : Nat)
    (h : lookupA st.conns a = none) : connection_close now st a = none := by
  rw [connection_close, h, Option.none_bind]

theorem connection_close_nosock (now : ℚ) (st : RState) (a : Nat) (c : Conn)
    (h : lookupA st.conns a = some c) (hs : c.sock = none) :
    connection_close now st a = none := by
  rw [connection_close, h, Option.some_bind, hs, Option.none_bind]

theorem connection_close_eqn (now : ℚ) (st : RState) (a : Nat) (c : Conn) (fd : Nat)
    (h : lookupA st.conns a = some c) (hs : c.sock = some fd) :
    connection_close now st a =
      (if fd ∈ st.pollSet then
        some { st with
          pollSet := removeFd st.pollSet fd,
          conns := setEntry st.conns a
            { c with state := CState.disconnected, closed := true, time := now },
          events := st.events ++ [CEvent.closeCalled a] }
      else none) := by
  rw [connection_close, h, Option.some_bind, hs, Option.some_bind]

theorem closeAndDrop_none (now : ℚ) (st : RState) (a : Nat)
    (h : lookupA st.conns a = none) : closeAndDrop now st a = none := by
  rw [closeAndDrop, h, Option.none_bind]

theorem closeAndDrop_eqn (now : ℚ) (st : RState) (a : Nat) (c : Conn)
    (h : lookupA st.conns a = some c) :
    closeAndDrop now st a =
      (if c.closed then some { st with conns := delKey st.conns a }
      else (connection_close now st a).map fun st2 =>
        { st2 with conns := delKey st2.conns a }) := by
  rw [closeAndDrop, h, Option.some_bind]

theorem close_if_open_none (now : ℚ) (st : RState) (a : Nat)
    (h : lookupA st.conns a = none) : close_if_open now st a = none := by
  rw [close_if_open, h, Option.none_bind]

theorem close_if_open_eqn (now : ℚ) (st : RState) (a : Nat) (c : Conn)
    (h : lookupA st.conns a = some c) :
    close_if_open now st a = (if c.closed then some st else connection_close now st a) := by
  rw [close_if_open, h, Option.some_bind]

/-! ### `connect_one` lemmas -/

theorem connect_one_lookup_self (dialRes : Option Nat) (now : ℚ) (st : RState) (a : Nat) :
    lookupA (connect_one dialRes now st a).conns a = some (connResult dialRes now) := by
  cases dialRes with
  | none => simp [connect_one, connResult, lookupA_setEntry_self]
  | some fd => simp [connect_one, connResult, lookupA_setEntry_self]

theorem connect_one_lookup_other (dialRes : Option Nat) (now : ℚ) (st : RState) (a b : Nat)
    (h : b ≠ a) :
    lookupA (connect_one dialRes now st a).conns b = lookupA st.conns b := by
  cases dialRes with
  | none => simp [connect_one, lookupA_setEntry_other _ _ _ _ h]
  | some fd => simp [connect_one, lookupA_setEntry_other _ _ _ _ h]

theorem connect_one_events (dialRes : Option Nat) (now : ℚ) (st : RState) (a : Nat) :
    (connect_one dialRes now st a).events = st.events ++ [CEvent.dialed a] := by
  cases dialRes <;> rfl

/-! ### The two folds of `connections_check` -/

theorem foldConnect_go (dial : Nat → Option Nat) (now : ℚ) :
    ∀ (tc : List Nat) (st : RState), tc.Nodup →
      (∀ a ∈ tc, lookupA (tc.foldl (fun s x => connect_one (dial x) now s x) st).conns a =
          some (connResult (dial a) now)) ∧
      (∀ b, b ∉ tc → lookupA (tc.foldl (fun s x => connect_one (dial x) now s x) st).conns b =
          lookupA st.conns b) ∧
      ∃ newEvs : List CEvent,
        (tc.foldl (fun s x => connect_one (dial x) now s x) st).events = st.events ++ newEvs ∧
        (∀ b, CEvent.dialed b ∈ newEvs ↔ b ∈ tc) ∧
        (∀ b, CEvent.closeCalled b ∉ newEvs) := by
  intro tc
  induction tc with
  | nil =>
    intro st _
    exact ⟨by simp, fun b _ => rfl, [], by simp, by simp, by simp⟩
  | cons a rest ih =>
    intro st hnd
    rw [List.nodup_cons] at hnd
    obtain ⟨hanr, hrest⟩ := hnd
    obtain ⟨ih1, ih2, newEvs, ihev, ihdial, ihclose⟩ := ih (connect_one (dial a) now st a) hrest
    rw [List.foldl_cons]
    refine ⟨?_, ?_, CEvent.dialed a :: newEvs, ?_, ?_, ?_⟩
    · intro b hb
      rcases List.mem_cons.mp hb with rfl | hb2
      · rw [ih2 b hanr]
        exact connect_one_lookup_self (dial b) now st b
      · exact ih1 b hb2
    · intro b hb
      have hbne : b ≠ a := fun hh => hb (hh ▸ List.mem_cons_self a rest)
      have hbr : b ∉ rest := fun hh => hb (List.mem_cons_of_mem a hh)
      rw [ih2 b hbr, connect_one_lookup_other _ _ _ _ _ hbne]
    · rw [ihev, connect_one_events, List.append_assoc]
      rfl
    · intro b
      constructor
      · intro h1
        rcases List.mem_cons.mp h1 with h2 | h2
        · injection h2 with hba
          exact List.mem_cons.mpr (Or.inl hba)
        · exact List.mem_cons_of_mem a ((ihdial b).mp h2)
      · intro h1
        rcases List.mem_cons.mp h1 with rfl | h2
        · exact List.mem_cons_self _ _
        · exact List.mem_cons_of_mem _ ((ihdial b).mpr h2)
    · intro b hmem
      rcases List.mem_cons.mp hmem with h2 | h2
      · exact CEvent.noConfusion h2
      · exact ihclose b h2

theorem foldClose_go (now : ℚ) :
    ∀ (tc : List Nat) (st : RState),
      tc.Nodup →
      (st.conns.map Prod.fst).Nodup →
      (∀ a ∈ tc, ∃ c, lookupA st.conns a = some c) →
      (∀ a ∈ tc, ∀ c, lookupA st.conns a = some c → c.closed = false →
        ∃ fd, c.sock = some fd ∧ fd ∈ st.pollSet) →
      (∀ a ∈ tc, ∀ b ∈ tc, a ≠ b → ∀ ca cb fd, lookupA st.conns a = some ca →
        lookupA st.conns b = some cb → ca.sock = some fd → cb.sock = some fd → False) →
      ∃ st', foldClose now (some st) tc = some st' ∧
        (∀ a ∈ tc, lookupA st'.conns a = none) ∧
        (∀ b, b ∉ tc → lookupA st'.conns b = lookupA st.conns b) ∧
        (st'.conns.map Prod.fst).Nodup ∧
        ∃ newEvs : List CEvent, st'.events = st.events ++ newEvs ∧
          (∀ b, CEvent.closeCalled b ∈ newEvs ↔
            (b ∈ tc ∧ ∃ c, lookupA st.conns b = some c ∧ c.closed = false)) ∧
          (∀ b, CEvent.dialed b ∉ newEvs) := by
  intro tc
  induction tc with
  | nil =>
    intro st _ hknd _ _ _
    exact ⟨st, rfl, by simp, fun b _ => rfl, hknd, [], by simp, by simp, by simp⟩
  | cons a rest ih =>
    intro st hnd hknd h1 h2 h3
    rw [List.nodup_cons] at hnd
    obtain ⟨hanr, hrnd⟩ := hnd
    have hne_of_mem : ∀ b ∈ rest, b ≠ a := fun b hb hba => hanr (hba ▸ hb)
    obtain ⟨c, hc⟩ := h1 a (List.mem_cons_self a rest)
    by_cases hcl : c.closed = true
    · -- already flagged closed: no close call, just delete the entry
      have hstep : closeAndDrop now st a = some { st with conns := delKey st.conns a } := by
        simp [closeAndDrop, hc, hcl]
      have hl1other : ∀ b, b ≠ a →
          lookupA (delKey st.conns a) b = lookupA st.conns b :=
        fun b hb => lookupA_delKey_other st.conns a b hb
      have hl1self : lookupA (delKey st.conns a) a = none := lookupA_delKey_self st.conns a hknd
      have hk1 : ((delKey st.conns a).map Prod.fst).Nodup := nodup_keys_delKey st.conns a hknd
      obtain ⟨st', hfold, hmemnone, huntouched, hknd', newEvs, hev, hcc, hdl⟩ :=
        ih { st with conns := delKey st.conns a } hrnd hk1
          (fun b hb => by
            rw [show lookupA ({ st with conns := delKey st.conns a } : RState).conns b =
              lookupA st.conns b from hl1other b (hne_of_mem b hb)]
            exact h1 b (List.mem_cons_of_mem a hb))
          (fun b hb cb hlb hclb => by
            rw [show lookupA ({ st with conns := delKey st.conns a } : RState).conns b =
              lookupA st.conns b from hl1other b (hne_of_mem b hb)] at hlb
            exact h2 b (List.mem_cons_of_mem a hb) cb hlb hclb)
          (fun b hb b2 hb2 hne ca cb fd hla hlb hsa hsb => by
            rw [show lookupA ({ st with conns := delKey st.conns a } : RState).conns b =
              lookupA st.conns b from hl1other b (hne_of_mem b hb)] at hla
            rw [show lookupA ({ st with conns := delKey st.conns a } : RState).conns b2 =
              lookupA st.conns b2 from hl1other b2 (hne_of_mem b2 hb2)] at hlb
            exact h3 b (List.mem_cons_of_mem a hb) b2 (List.mem_cons_of_mem a hb2) hne
              ca cb fd hla hlb hsa hsb)
      refine ⟨st', ?_, ?_, ?_, hknd', newEvs, hev, ?_, hdl⟩
      · have heq : foldClose now (some st) (a :: rest) =
            foldClose now (closeAndDrop now st a) rest := rfl
        rw [heq, hstep]
        exact hfold
      · intro b hb
        rcases List.mem_cons.mp hb with rfl | hb2
        · rw [huntouched b hanr]
          exact hl1self
        · exact hmemnone b hb2
      · intro b hb
        have hbne : b ≠ a := fun hh => hb (hh ▸ List.mem_cons_self a rest)
        have hbr : b ∉ rest := fun hh => hb (List.mem_cons_of_mem a hh)
        rw [huntouched b hbr]
        exact hl1other b hbne
      · intro b
        rw [hcc b]
        constructor
        · rintro ⟨hbr, cb, hlb, hclb⟩
          refine ⟨List.mem_cons_of_mem a hbr, cb, ?_, hclb⟩
          rw [← hl1other b (hne_of_mem b hbr)]
          exact hlb
        · rintro ⟨hbmem, cb, hlb, hclb⟩
          rcases List.mem_cons.mp hbmem with rfl | hbr
          · rw [hc, Option.some.injEq] at hlb
            rw [← hlb] at hclb
            rw [hcl] at hclb
            exact Bool.noConfusion hclb
          · exact ⟨hbr, cb, by rw [hl1other b (hne_of_mem b hbr)]; exact hlb, hclb⟩
    · -- not flagged closed: connection_close runs, then the entry is deleted
      have hclf : c.closed = false := by simpa using hcl
      obtain ⟨fd, hsock, hfdmem⟩ := h2 a (List.mem_cons_self a rest) c hc hclf
      have hclose : connection_close now st a = some { st with
          pollSet := removeFd st.pollSet fd,
          conns := setEntry st.conns a
            { c with state := CState.disconnected, closed := true, time := now },
          events := st.events ++ [CEvent.closeCalled a] } := by
        simp [connection_close, hc, hsock, hfdmem]
      have hstep : closeAndDrop now st a = some { st with
          pollSet := removeFd st.pollSet fd,
          conns := delKey (setEntry st.conns a
            { c with state := CState.disconnected, closed := true, time := now }) a,
          events := st.events ++ [CEvent.closeCalled a] } := by
        simp [closeAndDrop, hc, hclf, hclose]
      have hsknd : ((setEntry st.conns a
          { c with state := CState.disconnected, closed := true, time := now }).map
            Prod.fst).Nodup := nodup_keys_setEntry st.conns a _ hknd
      have hl1other : ∀ b, b ≠ a →
          lookupA (delKey (setEntry st.conns a
            { c with state := CState.disconnected, closed := true, time := now }) a) b =
          lookupA st.conns b := by
        intro b hb
        rw [lookupA_delKey_other _ a b hb, lookupA_setEntry_other _ a b _ hb]
      have hl1self : lookupA (delKey (setEntry st.conns a
          { c with state := CState.disconnected, closed := true, time := now }) a) a = none :=
        lookupA_delKey_self _ a hsknd
      have hk1 : ((delKey (setEntry st.conns a
          { c with state := CState.disconnected, closed := true, time := now }) a).map
            Prod.fst).Nodup := nodup_keys_delKey _ a hsknd
      obtain ⟨st', hfold, hmemnone, huntouched, hknd', newEvs, hev, hcc, hdl⟩ :=
        ih { st with
            pollSet := removeFd st.pollSet fd,
            conns := delKey (setEntry st.conns a
              { c with state := CState.disconnected, closed := true, time := now }) a,
            events := st.events ++ [CEvent.closeCalled a] } hrnd hk1
          (fun b hb => by
            rw [show lookupA (delKey (setEntry st.conns a
                { c with state := CState.disconnected, closed := true, time := now }) a) b =
              lookupA st.conns b from hl1other b (hne_of_mem b hb)]
            exact h1 b (List.mem_cons_of_mem a hb))
          (fun b hb cb hlb hclb => by
            rw [show lookupA (delKey (setEntry st.conns a
                { c with state := CState.disconnected, closed := true, time := now }) a) b =
              lookupA st.conns b from hl1other b (hne_of_mem b hb)] at hlb
            obtain ⟨fdb, hsockb, hfdbmem⟩ := h2 b (List.mem_cons_of_mem a hb) cb hlb hclb
            refine ⟨fdb, hsockb, ?_⟩
            apply mem_removeFd_of_ne _ _ _ hfdbmem
            intro hfdeq
            exact h3 a (List.mem_cons_self a rest) b (List.mem_cons_of_mem a hb)
              (fun hab => (hne_of_mem b hb) hab.symm) c cb fd hc hlb hsock
              (by rw [hsockb, hfdeq])
          )
          (fun b hb b2 hb2 hne ca cb fd2 hla hlb hsa hsb => by
            rw [show lookupA (delKey (setEntry st.conns a
                { c with state := CState.disconnected, closed := true, time := now }) a) b =
              lookupA st.conns b from hl1other b (hne_of_mem b hb)] at hla
            rw [show lookupA (delKey (setEntry st.conns a
                { c with state := CState.disconnected, closed := true, time := now }) a) b2 =
              lookupA st.conns b2 from hl1other b2 (hne_of_mem b2 hb2)] at hlb
            exact h3 b (List.mem_cons_of_mem a hb) b2 (List.mem_cons_of_mem a hb2) hne
              ca cb fd2 hla hlb hsa hsb)
      refine ⟨st', ?_, ?_, ?_, hknd', CEvent.closeCalled a :: newEvs, ?_, ?_, ?_⟩
      · have heq : foldClose now (some st) (a :: rest) =
            foldClose now (closeAndDrop now st a) rest := rfl
        rw [heq, hstep]
        exact hfold
      · intro b hb
        rcases List.mem_cons.mp hb with rfl | hb2
        · rw [huntouched b hanr]
          exact hl1self
        · exact hmemnone b hb2
      · intro b hb
        have hbne : b ≠ a := fun hh => hb (hh ▸ List.mem_cons_self a rest)
        have hbr : b ∉ rest := fun hh => hb (List.mem_cons_of_mem a hh)
        rw [huntouched b hbr]
        exact hl1other b hbne
      · rw [hev]
        rw [show ({ st with
            pollSet := removeFd st.pollSet fd,
            conns := delKey (setEntry st.conns a
              { c with state := CState.disconnected, closed := true, time := now }) a,
            events := st.events ++ [CEvent.closeCalled a] } : RState).events =
          st.events ++ [CEvent.closeCalled a] from rfl]
        rw [List.append_assoc]
        rfl
      · intro b
        constructor
        · intro hmem
          rcases List.mem_cons.mp hmem with h4 | h4
          · injection h4 with hba
            subst hba
            exact ⟨List.mem_cons_self b rest, c, hc, hclf⟩
          · obtain ⟨hbr, cb, hlb, hclb⟩ := (hcc b).mp h4
            refine ⟨List.mem_cons_of_mem a hbr, cb, ?_, hclb⟩
            rw [← hl1other b (hne_of_mem b hbr)]
            exact hlb
        · rintro ⟨hbmem, cb, hlb, hclb⟩
          rcases List.mem_cons.mp hbmem with rfl | hbr
          · exact List.mem_cons_self _ _
          · refine List.mem_cons_of_mem _ ((hcc b).mpr ⟨hbr, cb, ?_, hclb⟩)
            rw [hl1other b (hne_of_mem b hbr)]
            exact hlb
      · intro b hmem
        rcases List.mem_cons.mp hmem with h4 | h4
        · exact CEvent.noConfusion h4
        · exact hdl b h4

theorem mem_stale_addrs (l : List (Nat × Conn)) (now : ℚ) (a : Nat) :
    a ∈ (l.filter (fun p => staleB now p.2)).map Prod.fst ↔
      ∃ c, (a, c) ∈ l ∧ staleB now c = true := by
  constructor
  · intro h
    obtain ⟨p, hp, hpa⟩ := List.mem_map.mp h
    obtain ⟨hmem, hstale⟩ := List.mem_filter.mp hp
    refine ⟨p.2, ?_, hstale⟩
    rw [← hpa]
    exact hmem
  · rintro ⟨c, hmem, hstale⟩
    exact List.mem_map.mpr ⟨(a, c), List.mem_filter.mpr ⟨hmem, hstale⟩, rfl⟩

/-! ## C6 — the health scan -/

/-- What `connections_check` does to a given state: the scan succeeds;
every stale connection (state `connecting` or `disconnected`, last
transition more than 5 time units old) is replaced by the record a
fresh `connect_one` dial leaves under the same address; other
connections and absent addresses are untouched; a close is performed
exactly for the stale connections that are not already flagged closed;
and a dial is performed exactly for the stale addresses. -/
def checkSpec (dial : Nat → Option Nat) (now : ℚ) (st : RState) : Prop :=
  ∃ st', connections_check dial now st = some st' ∧
    (∀ a c, lookupA st.conns a = some c → staleB now c = true →
      lookupA st'.conns a = some (connResult (dial a) now)) ∧
    (∀ a c, lookupA st.conns a = some c → staleB now c = false →
      lookupA st'.conns a = some c) ∧
    (∀ a, lookupA st.conns a = none → lookupA st'.conns a = none) ∧
    ∃ newEvs : List CEvent, st'.events = st.events ++ newEvs ∧
      (∀ b, CEvent.closeCalled b ∈ newEvs ↔
        ∃ c, lookupA st.conns b = some c ∧ staleB now c = true ∧ c.closed = false) ∧
      (∀ b, CEvent.dialed b ∈ newEvs ↔
        ∃ c, lookupA st.conns b = some c ∧ staleB now c = true)

/-- **C6.**  When the health scan runs on a registry with
duplicate-free keys, where every not-yet-closed connection holds a
registered socket (`hsafe`) and no two distinct connections share a
descriptor (`hsd`) — both invariants of reachable states — it behaves
exactly as claimed: every stale connection is closed (only if not
already flagged closed), removed, and immediately redialed via
`connect_one` under the same address; all others are untouched. -/
theorem c6_theorem (dial : Nat → Option Nat) (now : ℚ) (st : RState)
    (hkeys : (st.conns.map Prod.fst).Nodup)
    (hsafe : ∀ p ∈ st.conns, p.2.closed = false → ∃ fd, p.2.sock = some fd ∧ fd ∈ st.pollSet)
    (hsd : ∀ p ∈ st.conns, ∀ q ∈ st.conns, p.1 ≠ q.1 →
      ∀ fd, p.2.sock = some fd → q.2.sock = some fd → False) :
    checkSpec dial now st := by
  set tc := (st.conns.filter (fun p => staleB now p.2)).map Prod.fst with htc
  have htcmem : ∀ a, a ∈ tc ↔ ∃ c, lookupA st.conns a = some c ∧ staleB now c = true := by
    intro a
    rw [htc, mem_stale_addrs]
    constructor
    · rintro ⟨c, hmem, hst⟩
      exact ⟨c, mem_lookupA st.conns a c hmem hkeys, hst⟩
    · rintro ⟨c, hl, hst⟩
      exact ⟨c, lookupA_mem_aux st.conns a c hl, hst⟩
  have htcnd : tc.Nodup :=
    hkeys.sublist ((List.filter_sublist st.conns).map Prod.fst)
  have hg1 : ∀ a ∈ tc, ∃ c, lookupA st.conns a = some c := by
    intro a ha
    obtain ⟨c, hl, _⟩ := (htcmem a).mp ha
    exact ⟨c, hl⟩
  have hg2 : ∀ a ∈ tc, ∀ c, lookupA st.conns a = some c → c.closed = false →
      ∃ fd, c.sock = some fd ∧ fd ∈ st.pollSet := by
    intro a _ c hl hcl
    exact hsafe (a, c) (lookupA_mem_aux st.conns a c hl) hcl
  have hg3 : ∀ a ∈ tc, ∀ b ∈ tc, a ≠ b → ∀ ca cb fd, lookupA st.conns a = some ca →
      lookupA st.conns b = some cb → ca.sock = some fd → cb.sock = some fd → False := by
    intro a _ b _ hne ca cb fd hla hlb hsa hsb
    exact hsd (a, ca) (lookupA_mem_aux _ _ _ hla) (b, cb) (lookupA_mem_aux _ _ _ hlb)
      hne fd hsa hsb
  obtain ⟨st1, hfold, hnone1, hun1, hknd1, newEvs1, hev1, hcc1, hdl1⟩ :=
    foldClose_go now tc st htcnd hkeys hg1 hg2 hg3
  obtain ⟨hc2self, hc2other, newEvs2, hev2, hdial2, hcc2⟩ :=
    foldConnect_go dial now tc st1 htcnd
  refine ⟨tc.foldl (fun s a => connect_one (dial a) now s a) st1, ?_, ?_, ?_, ?_,
    newEvs1 ++ newEvs2, ?_, ?_, ?_⟩
  · simp only [connections_check]
    rw [← htc, hfold, Option.map_some']
  · intro a c hl hst
    exact hc2self a ((htcmem a).mpr ⟨c, hl, hst⟩)
  · intro a c hl hst
    have ha : a ∉ tc := by
      intro hmem
      obtain ⟨c2, hl2, hst2⟩ := (htcmem a).mp hmem
      rw [hl, Option.some.injEq] at hl2
      rw [← hl2, hst] at hst2
      exact Bool.noConfusion hst2
    rw [hc2other a ha, hun1 a ha]
    exact hl
  · intro a hl
    have ha : a ∉ tc := by
      intro hmem
      obtain ⟨c2, hl2, _⟩ := (htcmem a).mp hmem
      rw [hl] at hl2
      exact Option.noConfusion hl2
    rw [hc2other a ha, hun1 a ha]
    exact hl
  · rw [hev2, hev1, List.append_assoc]
  · intro b
    rw [List.mem_append]
    constructor
    · rintro (h4 | h4)
      · obtain ⟨hbtc, c, hl, hcl⟩ := (hcc1 b).mp h4
        obtain ⟨c2, hl2, hst2⟩ := (htcmem b).mp hbtc
        rw [hl, Option.some.injEq] at hl2
        exact ⟨c, hl, by rw [hl2]; exact hst2, hcl⟩
      · exact absurd h4 (hcc2 b)
    · rintro ⟨c, hl, hst, hcl⟩
      left
      exact (hcc1 b).mpr ⟨(htcmem b).mpr ⟨c, hl, hst⟩, c, hl, hcl⟩
  · intro b
    rw [List.mem_append]
    constructor
    · rintro (h4 | h4)
      · exact absurd h4 (hdl1 b)
      · exact (htcmem b).mp ((hdial2 b).mp h4)
    · intro h4
      right
      exact (hdial2 b).mpr ((htcmem b).mpr h4)

/-- A connection stuck in `connecting` since time 0. -/
def exStaleConn : Conn :=
  { sock := none, state := CState.connecting, time := 0, inBuf := [], closed := true }

/-- A registry whose only connection has been stuck in `connecting`
for 6 time units at scan time 6. -/
def exStale : RState :=
  { conns := [(0, exStaleConn)], pollSet := [], events := [] }

/-- **C6, witness.**  The claim's scenario: a connection in
`connecting` state for 6 time units (interval 5) is deleted and
redialed by the health scan. -/
theorem c6_witness : checkSpec (fun _ => none) 6 exStale :=
  c6_theorem (fun _ => none) 6 exStale (List.nodup_singleton 0)
    (by
      intro p hp hcl
      have hp2 : p = (0, exStaleConn) := List.mem_singleton.mp hp
      rw [hp2] at hcl
      exact absurd hcl (by decide))
    (by
      intro p hp q hq hne
      have hp2 : p = (0, exStaleConn) := List.mem_singleton.mp hp
      have hq2 : q = (0, exStaleConn) := List.mem_singleton.mp hq
      rw [hp2, hq2] at hne
      exact absurd rfl hne)

/-! ## C8 — idempotence of close -/

/-- A connection whose socket (descriptor 3) has already been closed
and unregistered. -/
def exClosedConn : Conn :=
  { sock := some 3, state := CState.disconnected, time := 0, inBuf := [], closed := true }

/-- A registry holding only the already-closed connection. -/
def exClosedSt : RState :=
  { conns := [(0, exClosedConn)], pollSet := [], events := [] }

/-- **C8, counterexample.**  Calling `connection_close` on an address
whose connection is already flagged closed does *not* "perform no
further effect and not fail": the socket's descriptor is no longer in
the poll set (and the closed socket no longer has a `fileno`), so
`poll.unregister` raises — modelled by `none`. -/
theorem c8_counterexample : connection_close 1 exClosedSt 0 = none := rfl

/-- **C8 (amended).**  The raw `connection_close` is not idempotent:
after a successful close, a second direct call on the same address
fails (it would unregister an unregistered descriptor).  Idempotence
with respect to the `closed` flag belongs to the flag-guarded close the
caller performs (`connections_check` closes only
`if not item['closed']`): once the guarded close has run, running it
again returns the same state, unchanged and without failing. -/
theorem c8_theorem (now now2 : ℚ) (st : RState) (a : Nat) :
    (∀ st', close_if_open now st a = some st' → close_if_open now2 st' a = some st') ∧
    (st.pollSet.Nodup → ∀ st2, connection_close now st a = some st2 →
      connection_close now2 st2 a = none) := by
  constructor
  · intro st' h
    cases hl : lookupA st.conns a with
    | none =>
      rw [close_if_open_none now st a hl] at h
      exact Option.noConfusion h
    | some c =>
      rw [close_if_open_eqn now st a c hl] at h
      by_cases hcl : c.closed = true
      · rw [if_pos hcl] at h
        have hst : st = st' := Option.some.inj h
        subst hst
        rw [close_if_open_eqn now2 st a c hl, if_pos hcl]
      · rw [if_neg hcl] at h
        cases hs : c.sock with
        | none =>
          rw [connection_close_nosock now st a c hl hs] at h
          exact Option.noConfusion h
        | some fd =>
          rw [connection_close_eqn now st a c fd hl hs] at h
          by_cases hmem : fd ∈ st.pollSet
          · rw [if_pos hmem] at h
            rw [← Option.some.inj h]
            rw [close_if_open_eqn now2 _ a _ (lookupA_setEntry_self st.conns a _)]
            rw [if_pos rfl]
          · rw [if_neg hmem] at h
            exact Option.noConfusion h
  · intro hnd st2 h
    cases hl : lookupA st.conns a with
    | none =>
      rw [connection_close_none now st a hl] at h
      exact Option.noConfusion h
    | some c =>
      cases hs : c.sock with
      | none =>
        rw [connection_close_nosock now st a c hl hs] at h
        exact Option.noConfusion h
      | some fd =>
        rw [connection_close_eqn now st a c fd hl hs] at h
        by_cases hmem : fd ∈ st.pollSet
        · rw [if_pos hmem] at h
          rw [← Option.some.inj h]
          set cC : Conn := { c with state := CState.disconnected, closed := true, time := now } with hcC
          have hl2 := lookupA_setEntry_self st.conns a cC
          have hs2 : cC.sock = some fd := hs
          rw [connection_close_eqn now2 _ a cC fd hl2 hs2]
          rw [if_neg (not_mem_removeFd_self st.pollSet fd hnd)]
        · rw [if_neg hmem] at h
          exact Option.noConfusion h

/-- An open, registered connection on descriptor 3. -/
def exOpenConn : Conn :=
  { sock := some 3, state := CState.connected, time := 0, inBuf := [], closed := false }

/-- A registry holding only the open connection, descriptor registered. -/
def exOpenSt : RState :=
  { conns := [(0, exOpenConn)], pollSet := [3], events := [] }

/-- The connection of `exOpenSt` after the close at time 1. -/
def exOpenClosedConn : Conn :=
  { sock := some 3, state := CState.disconnected, time := 1, inBuf := [], closed := true }

/-- `exOpenSt` after the guarded close at time 1. -/
def exOpenClosedSt : RState :=
  { conns := [(0, exOpenClosedConn)], pollSet := [], events := [CEvent.closeCalled 0] }

/-- **C8, witness.**  Closing the open connection succeeds; the guarded
close applied again is a no-op; the raw close applied again fails. -/
theorem c8_witness :
    close_if_open 1 exOpenSt 0 = some exOpenClosedSt ∧
    close_if_open 2 exOpenClosedSt 0 = some exOpenClosedSt ∧
    connection_close 2 exOpenClosedSt 0 = none := by
  refine ⟨by decide, (c8_theorem 1 2 exOpenSt 0).1 exOpenClosedSt (by decide),
    (c8_theorem 1 2 exOpenSt 0).2 (by decide) exOpenClosedSt (by decide)⟩

/-! ## C9 — descriptor lookup for unknown descriptors -/

/-- The registered connection of the C9 failing input: its socket has
descriptor 3. -/
def exConnA : Conn :=
  { sock := some 3, state := CState.connected, time := 0, inBuf := [], closed := false }

/-- **C9 (code bug).**  Failing input: a registry holding one
connection whose descriptor is 3, and a readiness event for descriptor
7.  The claim (and the spec) say the lookup reports not-found and the
loop skips the event; instead the Python `for` loop leaves its loop
variables bound to the last pair scanned, so `connection_search`
returns that unrelated connection (`item` is a non-empty dict, so
`if not item: continue` does not skip, and the loop reads from the
wrong socket).  On an *empty* registry the code raises `NameError`
(`address` unbound, modelled `none`) instead of skipping. -/
theorem c9_theorem :
    connection_search [(0, exConnA)] 7 = some (0, exConnA) ∧
    ¬ exConnA.sock = some 7 ∧
    connection_search [] 7 = none := by
  refine ⟨rfl, by decide, rfl⟩

/-! ## C10 — the closed flag across connection lifecycles -/

/-- One registry operation together with the environment data (dial
outcome, current time) it consumes. -/
inductive ROp
  | opConnect (a : Nat) (dialRes : Option Nat) (now : ℚ)
  | opClose (a : Nat) (now : ℚ)
  | opCheck (dial : Nat → Option Nat) (now : ℚ)

/-- Applying one operation.  A failing `connection_close` or
`connections_check` raises in Python; the exception propagates out of
`run` before (respectively: without) mutating the registry, so the
prior state is kept.  (For `connections_check` the partially mutated
state a mid-scan exception leaves behind also satisfies the invariant
proved below; the exception ends the reader.) -/
def applyOp (st : RState) : ROp → RState
  | ROp.opConnect a d now => connect_one d now st a
  | ROp.opClose a now => (connection_close now st a).getD st
  | ROp.opCheck dial now => (connections_check dial now st).getD st

/-- The registry states reachable by a sequence of operations from the
initial empty registry (`connect()` starts with
`self.connections = {}`). -/
def runOps (ops : List ROp) : RState :=
  ops.foldl applyOp { conns := [], pollSet := [], events := [] }

/-- **C10, counterexample.**  After `connect_one` with a failing dial,
the record has `closed = True` while its state is `connecting`, not
`disconnected` — the claimed equivalence `closed ↔ state =
disconnected` fails on this reachable record. -/
theorem c10_counterexample :
    (lookupA (runOps [ROp.opConnect 0 none 0]).conns 0).map Conn.closed = some true ∧
    ¬ (lookupA (runOps [ROp.opConnect 0 none 0]).conns 0).map Conn.state =
        some CState.disconnected := by
  exact ⟨rfl, by decide⟩

/-- The flag invariant that actually holds of every reachable record:
`closed` is true exactly when the state is *not* `connected`. -/
def flagInv (st : RState) : Prop :=
  ∀ p ∈ st.conns, (p.2.closed = true ↔ p.2.state ≠ CState.connected)

theorem flagInv_connect_one (d : Option Nat) (now : ℚ) (st : RState) (a : Nat)
    (h : flagInv st) : flagInv (connect_one d now st a) := by
  intro p hp
  cases d with
  | none =>
    simp only [connect_one] at hp
    rcases mem_setEntry _ _ _ _ hp with h1 | h1
    · exact h p h1
    · rw [h1]
      simp [freshConn]
  | some fd =>
    simp only [connect_one] at hp
    rcases mem_setEntry _ _ _ _ hp with h1 | h1
    · rcases mem_setEntry _ _ _ _ h1 with h2 | h2
      · exact h p h2
      · rw [h2]
        simp [freshConn]
    · rw [h1]
      simp [liveConn]

theorem flagInv_close (now : ℚ) (st st2 : RState) (a : Nat)
    (hc : connection_close now st a = some st2) (h : flagInv st) : flagInv st2 := by
  cases hl : lookupA st.conns a with
  | none =>
    rw [connection_close_none now st a hl] at hc
    exact Option.noConfusion hc
  | some c =>
    cases hs : c.sock with
    | none =>
      rw [connection_close_nosock now st a c hl hs] at hc
      exact Option.noConfusion hc
    | some fd =>
      rw [connection_close_eqn now st a c fd hl hs] at hc
      by_cases hmem : fd ∈ st.pollSet
      · rw [if_pos hmem] at hc
        intro p hp
        rw [← Option.some.inj hc] at hp
        rcases mem_setEntry _ _ _ _ hp with h1 | h1
        · exact h p h1
        · rw [h1]
          simp
      · rw [if_neg hmem] at hc
        exact Option.noConfusion hc

theorem flagInv_closeAndDrop (now : ℚ) (st st2 : RState) (a : Nat)
    (hc : closeAndDrop now st a = some st2) (h : flagInv st) : flagInv st2 := by
  cases hl : lookupA st.conns a with
  | none =>
    rw [closeAndDrop_none now st a hl] at hc
    exact Option.noConfusion hc
  | some c =>
    rw [closeAndDrop_eqn now st a c hl] at hc
    by_cases hcl : c.closed = true
    · rw [if_pos hcl] at hc
      intro p hp
      rw [← Option.some.inj hc] at hp
      exact h p (mem_delKey _ _ _ hp)
    · rw [if_neg hcl] at hc
      cases hcc : connection_close now st a with
      | none =>
        rw [hcc, Option.map_none'] at hc
        exact Option.noConfusion hc
      | some st3 =>
        rw [hcc, Option.map_some'] at hc
        have h3 := flagInv_close now st st3 a hcc h
        intro p hp
        rw [← Option.some.inj hc] at hp
        exact h3 p (mem_delKey _ _ _ hp)

theorem flagInv_foldClose (now : ℚ) :
    ∀ (tc : List Nat) (acc : Option RState) (st2 : RState),
      foldClose now acc tc = some st2 → (∀ s, acc = some s → flagInv s) → flagInv st2 := by
  intro tc
  induction tc with
  | nil =>
    intro acc st2 hf hacc
    cases acc with
    | none => exact Option.noConfusion hf
    | some s =>
      have hss : s = st2 := Option.some.inj hf
      rw [← hss]
      exact hacc s rfl
  | cons a rest ih =>
    intro acc st2 hf hacc
    cases acc with
    | none => exact Option.noConfusion hf
    | some s =>
      have hs := hacc s rfl
      exact ih (closeAndDrop now s a) st2 hf
        (fun s2 h2 => flagInv_closeAndDrop now s s2 a h2 hs)

theorem flagInv_foldConnect (dial : Nat → Option Nat) (now : ℚ) :
    ∀ (tc : List Nat) (st : RState), flagInv st →
      flagInv (tc.foldl (fun s a => connect_one (dial a) now s a) st) := by
  intro tc
  induction tc with
  | nil =>
    intro st h
    exact h
  | cons a rest ih =>
    intro st h
    rw [List.foldl_cons]
    exact ih _ (flagInv_connect_one (dial a) now st a h)

theorem flagInv_check (dial : Nat → Option Nat) (now : ℚ) (st st2 : RState)
    (h : connections_check dial now st = some st2) (hi : flagInv st) : flagInv st2 := by
  simp only [connections_check] at h
  cases hf : foldClose now (some st)
      ((st.conns.filter (fun p => staleB now p.2)).map Prod.fst) with
  | none =>
    rw [hf, Option.map_none'] at h
    exact Option.noConfusion h
  | some st1 =>
    rw [hf, Option.map_some'] at h
    have h1 : flagInv st1 := flagInv_foldClose now _ _ _ hf
      (fun s hs => by rw [← Option.some.inj hs]; exact hi)
    rw [← Option.some.inj h]
    exact flagInv_foldConnect dial now _ st1 h1

theorem flagInv_applyOp (st : RState) (op : ROp) (h : flagInv st) :
    flagInv (applyOp st op) := by
  cases op with
  | opConnect a d now => exact flagInv_connect_one d now st a h
  | opClose a now =>
    simp only [applyOp]
    cases hc : connection_close now st a with
    | none =>
      rw [Option.getD_none]
      exact h
    | some s =>
      rw [Option.getD_some]
      exact flagInv_close now st s a hc h
  | opCheck dial now =>
    simp only [applyOp]
    cases hc : connections_check dial now st with
    | none =>
      rw [Option.getD_none]
      exact h
    | some s =>
      rw [Option.getD_some]
      exact flagInv_check dial now st s hc h

/-- **C10 (amended).**  In every record reachable through any sequence
of `connect_one`, `connection_close` and health-scan operations, the
`closed` flag is equivalent to the state *not* being `connected` — not
to the state being `disconnected` as claimed, because `connect_one`
creates (and a failed dial leaves) records that are `connecting` yet
flagged closed. -/
theorem c10_theorem (ops : List ROp) : flagInv (runOps ops) := by
  rw [runOps]
  have hgen : ∀ (l : List ROp) (s : RState), flagInv s → flagInv (l.foldl applyOp s) := by
    intro l
    induction l with
    | nil =>
      intro s h
      exact h
    | cons op rest ih =>
      intro s h
      rw [List.foldl_cons]
      exact ih _ (flagInv_applyOp s op h)
  exact hgen ops _ (fun p hp => absurd hp (List.not_mem_nil p))

/-- **C10, witness.**  The invariant instantiated at the reachable
record left by a failed dial: flagged closed, and indeed not
`connected`. -/
theorem c10_witness :
    (0, freshConn 0) ∈ (runOps [ROp.opConnect 0 none 0]).conns ∧
    ((freshConn 0).closed = true ↔ (freshConn 0).state ≠ CState.connected) := by
  have hmem : (0, freshConn 0) ∈ (runOps [ROp.opConnect 0 none 0]).conns := by decide
  exact ⟨hmem, c10_theorem [ROp.opConnect 0 none 0] (0, freshConn 0) hmem⟩

end OMReader
